import Mathlib

/-!
Shallow embedding of the datamaya file-manager backend (src/server.ts), together
with proofs about its path-safety, upload, share, listing and naming logic.

String-manipulating code from the TypeScript source is modelled on `List Char`
(the `.data` of a Lean `String`), mirroring the Node.js algorithms segment by
segment.  Filesystem and object-store effects are modelled by explicit state
or by oracle functions (`realpath`, object existence) passed as parameters.
JavaScript `trim` is modelled over the ASCII whitespace characters, and the
platform path separator (`path.sep`) is `/` (the server targets Linux).
-/

namespace Datamaya

/-- Whitespace as trimmed by JavaScript `String.prototype.trim` (ASCII part). -/
def isJsSpace (c : Char) : Bool :=
  c = ' ' || c = '\t' || c = '\n' || c = '\r' || c = '\x0b' || c = '\x0c'

/-- Model of JavaScript `value.trim()` on the character list. -/
def jsTrim (cs : List Char) : List Char :=
  ((cs.dropWhile isJsSpace).reverse.dropWhile isJsSpace).reverse

/-- Split a character list on `/`, keeping empty segments (like JS `split("/")`). -/
def splitSeg : List Char → List (List Char)
  | [] => [[]]
  | c :: rest =>
    if c = '/' then [] :: splitSeg rest
    else
      match splitSeg rest with
      | [] => [[c]]
      | s :: ss => (c :: s) :: ss

/-- Join segments with `/` separators (inverse of `splitSeg` on clean input). -/
def joinSeg : List (List Char) → List Char
  | [] => []
  | [s] => s
  | s :: rest => s ++ '/' :: joinSeg rest

/-- Segment normalization of Node's `normalizeString` with `allowAboveRoot = false`:
empty and `.` segments are dropped, `..` pops the previous segment (or is absorbed
at the root), other segments are kept.  The accumulator holds kept segments in
reverse order. -/
def normSegs : List (List Char) → List (List Char) → List (List Char)
  | stack, [] => stack.reverse
  | stack, s :: rest =>
    if s = [] ∨ s = ['.'] then normSegs stack rest
    else if s = ['.', '.'] then normSegs (stack.drop 1) rest
    else normSegs (s :: stack) rest

/-- Node `path.posix.normalize` restricted to absolute inputs: normalizes the
segments, falls back to `/` when nothing remains, and re-appends a trailing
separator when the input ended with one. -/
def posixNormalizeAbs (cs : List Char) : List Char :=
  let trailing := cs.getLast? = some '/'
  let segs := normSegs [] (splitSeg cs)
  if segs = [] then ['/']
  else '/' :: joinSeg segs ++ (if trailing then ['/'] else [])

/-- Node `path.resolve(root, rel)` for an absolute `root`: join and normalize,
with no trailing-separator preservation. -/
def pathResolveAbs (root rel : List Char) : List Char :=
  let segs := normSegs [] (splitSeg (root ++ '/' :: rel))
  if segs = [] then ['/'] else '/' :: joinSeg segs

/-- Character-level body of `normalizeRequestPath` from src/server.ts: trim,
default empty to `/`, convert backslashes, force a leading `/`, POSIX-normalize,
and fall back to `/` if the result were not absolute. -/
def normalizeRequestPathChars (input : List Char) : List Char :=
  let t0 := jsTrim input
  let t1 := if t0 = [] then ['/'] else t0
  let t2 := t1.map fun c => if c = '\\' then '/' else c
  let t3 := if t2.head? = some '/' then t2 else '/' :: t2
  let n := posixNormalizeAbs t3
  if n.head? = some '/' then n else ['/']

/-- Embedding of `normalizeRequestPath` (src/server.ts). -/
def normalizeRequestPath (input : String) : String :=
  ⟨normalizeRequestPathChars input.data⟩

/-- The root completed with a trailing separator, as built inside `isWithinRoot`. -/
def rootWithSep (root : List Char) : List Char :=
  if root.getLast? = some '/' then root else root ++ ['/']

/-- Embedding of `isWithinRoot` (src/server.ts): the candidate equals the root
or starts with the root followed by the path separator. -/
def isWithinRoot (candidate rootReal : String) : Bool :=
  if candidate = rootReal then true
  else (rootWithSep rootReal.data).isPrefixOf candidate.data

/-- Failure classes thrown by the resolvers (the source throws `Error`s with
distinct messages; callers map them all to 4xx responses). -/
inductive ResolveErr where
  | pathNotAllowed
  | notFound
  | pathEscape
  deriving DecidableEq

/-- Result record of `resolveSafePath`: `{ normalized, fullPath }`. -/
structure Resolved where
  normalized : String
  fullPath : String
  deriving DecidableEq

/-- Result of `resolveSafePath`: success or a thrown failure. -/
inductive PathRes where
  | ok (r : Resolved)
  | err (e : ResolveErr)
  deriving DecidableEq

/-- Embedding of `resolveSafePath` (src/server.ts).  `rp` is the OS `realpath`
oracle: `none` models a thrown `ENOENT`-style error. -/
def resolveSafePath (rp : String → Option String) (requestPath rootReal : String) : PathRes :=
  let normalized := normalizeRequestPath requestPath
  if normalized = "/.trash" ∨ ("/.trash/" : String).data <+: normalized.data then
    .err .pathNotAllowed
  else
    let joined : String := ⟨pathResolveAbs rootReal.data ('.' :: normalized.data)⟩
    match rp joined with
    | none => .err .notFound
    | some real =>
      if isWithinRoot real rootReal then .ok ⟨normalized, real⟩
      else .err .pathEscape

/-- Result record of `resolveSafeS3Path`: `{ normalized, rootPrefix }`. -/
structure S3Resolved where
  normalized : String
  rootPrefix : String
  deriving DecidableEq

/-- Result of `resolveSafeS3Path`. -/
inductive S3PathRes where
  | ok (r : S3Resolved)
  | err (e : ResolveErr)
  deriving DecidableEq

/-- Embedding of `resolveSafeS3Path` (src/server.ts): purely structural, no
filesystem access. -/
def resolveSafeS3Path (requestPath rootPrefix : String) : S3PathRes :=
  let normalized := normalizeRequestPath requestPath
  if normalized = "/.trash" ∨ ("/.trash/" : String).data <+: normalized.data then
    .err .pathNotAllowed
  else .ok ⟨normalized, rootPrefix⟩

/-- Embedding of `toS3Key` (src/server.ts): root prefix concatenated with the
normalized path minus its leading slash. -/
def toS3Key (rootPrefix normalizedPath : String) : String :=
  if normalizedPath = "/" then rootPrefix
  else ⟨rootPrefix.data ++ normalizedPath.data.drop 1⟩

/-- Embedding of `sanitizeName` (src/server.ts): trim, strip NUL bytes, reject
empty results, slashes, backslashes, `.` and `..`. -/
def sanitizeName (value : String) : Option String :=
  let trimmed := (jsTrim value.data).filter (· ≠ '\x00')
  if trimmed = [] then none
  else if '/' ∈ trimmed ∨ '\\' ∈ trimmed then none
  else if trimmed = ['.'] ∨ trimmed = ['.', '.'] then none
  else some ⟨trimmed⟩

/-- Node `path.posix.dirname`, expressed via the reversed-scan phases of the
Node implementation. -/
def posixDirname (cs : List Char) : List Char :=
  let hasRoot := cs.head? = some '/'
  let r := (cs.drop 1).reverse
  let r1 := r.dropWhile (· = '/')
  let r2 := r1.dropWhile (· ≠ '/')
  if r2 = [] then (if hasRoot then ['/'] else ['.'])
  else if hasRoot ∧ r2.length = 1 then ['/', '/']
  else cs.take r2.length

/-- Node `path.posix.basename` (one-argument form). -/
def posixBasename (cs : List Char) : List Char :=
  let r1 := cs.reverse.dropWhile (· = '/')
  (r1.takeWhile (· ≠ '/')).reverse

/-- Node `path.join(a, b)` for an absolute `a` and a nonempty `b`:
normalize `a ++ "/" ++ b`. -/
def joinAbs (a b : String) : String :=
  ⟨posixNormalizeAbs (a.data ++ '/' :: b.data)⟩

/-- Destination record of `resolveDestinationPath`: `{ normalized, fullPath }`. -/
structure DestResolved where
  normalized : String
  fullPath : String
  deriving DecidableEq

/-- Result of `resolveDestinationPath`: a returned value (possibly `null`) or a
propagated exception from the inner `resolveSafePath` call. -/
inductive DestRes where
  | ok (d : Option DestResolved)
  | thrown (e : ResolveErr)
  deriving DecidableEq

/-- Embedding of `resolveDestinationPath` (src/server.ts): reject the root and
the trash subtree, split into parent and sanitized base name, resolve the
parent, and join. -/
def resolveDestinationPath (rp : String → Option String) (target rootReal : String) : DestRes :=
  let normalized := normalizeRequestPath target
  if normalized = "/" ∨ ("/.trash" : String).data <+: normalized.data then .ok none
  else
    let parentNormalized : String := ⟨posixDirname normalized.data⟩
    match sanitizeName ⟨posixBasename normalized.data⟩ with
    | none => .ok none
    | some name =>
      match resolveSafePath rp parentNormalized rootReal with
      | .err e => .thrown e
      | .ok parent => .ok (some ⟨normalized, joinAbs parent.fullPath name⟩)

/-- Result of `resolveDestinationPathS3`. -/
inductive DestS3Res where
  | ok (normalized : String)
  | invalid
  deriving DecidableEq

/-- Embedding of `resolveDestinationPathS3` (src/server.ts). -/
def resolveDestinationPathS3 (target : String) : DestS3Res :=
  let normalized := normalizeRequestPath target
  if normalized = "/" ∨ ("/.trash" : String).data <+: normalized.data then .invalid
  else
    let _parentNormalized : String := ⟨posixDirname normalized.data⟩
    match sanitizeName ⟨posixBasename normalized.data⟩ with
    | none => .invalid
    | some _name => .ok normalized

/-- C1: successful local resolution is confined to the canonical root (it
returns the root itself or a path strictly below it), and every S3 object key
built by `toS3Key` starts with the user's root prefix. -/
theorem resolveSafePath_confinement :
    (∀ (rp : String → Option String) (requestPath rootReal : String) (out : Resolved),
        resolveSafePath rp requestPath rootReal = .ok out →
        out.fullPath = rootReal ∨ rootWithSep rootReal.data <+: out.fullPath.data) ∧
    (∀ rootPrefix normalizedPath : String,
        rootPrefix.data <+: (toS3Key rootPrefix normalizedPath).data) := by
  constructor
  · intro rp requestPath rootReal out h
    unfold resolveSafePath at h
    dsimp only at h
    split at h
    · exact absurd h (by simp)
    · split at h
      · exact absurd h (by simp)
      · split at h
        · rename_i hwithin
          injection h with h
          subst h
          unfold isWithinRoot at hwithin
          split at hwithin
          · rename_i heq
            exact Or.inl heq
          · exact Or.inr (List.isPrefixOf_iff_prefix.mp hwithin)
        · exact absurd h (by simp)
  · intro rootPrefix normalizedPath
    unfold toS3Key
    split
    · exact List.prefix_refl _
    · exact List.prefix_append _ _

/-- Witness for C1 at a concrete input. -/
theorem resolveSafePath_confinement_witness :
    ("/r/a" : String).1 = ("/r" : String).1 ∨
      rootWithSep ("/r" : String).data <+: ("/r/a" : String).data := by
  have h := resolveSafePath_confinement.1
    (fun s => if s = "/r/a" then some "/r/a" else none) "/a" "/r" ⟨"/a", "/r/a"⟩
  simpa using h (by decide)

/-- C5: every virtual path normalizing to `/.trash` or below it is rejected by
`resolveSafePath`, `resolveSafeS3Path` and `resolveDestinationPath`. -/
theorem trash_paths_rejected :
    ∀ (rp : String → Option String) (p rootReal : String),
      (normalizeRequestPath p = "/.trash" ∨
        ("/.trash/" : String).data <+: (normalizeRequestPath p).data) →
      resolveSafePath rp p rootReal = .err .pathNotAllowed ∧
      resolveSafeS3Path p rootReal = .err .pathNotAllowed ∧
      resolveDestinationPath rp p rootReal = .ok none := by
  intro rp p rootReal h
  have hpre : ("/.trash" : String).data <+: (normalizeRequestPath p).data := by
    rcases h with h | h
    · rw [h]
    · exact List.IsPrefix.trans (by decide) h
  refine ⟨?_, ?_, ?_⟩
  · unfold resolveSafePath
    rw [if_pos h]
  · unfold resolveSafeS3Path
    rw [if_pos h]
  · unfold resolveDestinationPath
    rw [if_pos (Or.inr hpre)]

/-- Witness for C5 at the concrete path `/.trash/x`. -/
theorem trash_paths_rejected_witness :
    resolveSafePath (fun _ => none) "/.trash/x" "/r" = .err .pathNotAllowed ∧
      resolveSafeS3Path "/.trash/x" "/r" = .err .pathNotAllowed ∧
      resolveDestinationPath (fun _ => none) "/.trash/x" "/r" = .ok none :=
  trash_paths_rejected (fun _ => none) "/.trash/x" "/r" (by decide)

/-! ### Chunked upload coordinator (local mode)

The local upload session is a temp directory holding `meta.json` (captured at
init) and one `{n}.part` file per uploaded part.  `part` maps a part number to
the byte content (bytes as `Nat`) of its `.part` file, `dest` models the
content of the destination file addressed by the session's metadata. -/

/-- Metadata written to `meta.json` by `handleLocalUploadInit`. -/
structure UploadMeta where
  path : String
  name : String
  overwrite : Bool

/-- State of one local upload session's temp directory. -/
structure UploadSessionFS where
  dirExists : Bool
  meta : Option UploadMeta
  part : Nat → Option (List Nat)

/-- Session directory right after `handleLocalUploadInit`. -/
def initSession (meta : UploadMeta) : UploadSessionFS :=
  { dirExists := true, meta := some meta, part := fun _ => none }

/-- Embedding of `handleLocalUploadChunk` (src/server.ts): 404 when the session
directory is missing, otherwise overwrite the `{n}.part` file. -/
def handleLocalUploadChunk (sess : UploadSessionFS) (partNumber : Nat) (chunk : List Nat) :
    UploadSessionFS × Bool :=
  if sess.dirExists then
    ({ sess with part := fun k => if k = partNumber then some chunk else sess.part k }, true)
  else (sess, false)

/-- Outcomes of `handleLocalUploadComplete` (HTTP statuses in the source):
`uploadNotFound`/`pathNotFound` are 404, `invalidPath` 400, `fileExists` 409,
`assembleFailed` the 500 "Failed to assemble upload." response. -/
inductive CompleteRes where
  | ok
  | uploadNotFound
  | pathNotFound
  | invalidPath
  | fileExists
  | assembleFailed
  deriving DecidableEq

/-- The part-reading loop of `handleLocalUploadComplete`: reads parts `i`,
`i+1`, ... (`rem` of them), appending each to the destination handle, stopping
with failure at the first missing part file.  Returns the bytes written so far
and whether every read succeeded. -/
def assembleLoop (part : Nat → Option (List Nat)) : Nat → Nat → List Nat × Bool
  | _, 0 => ([], true)
  | i, rem + 1 =>
    match part i with
    | none => ([], false)
    | some b =>
      let r := assembleLoop part (i + 1) rem
      (b ++ r.1, r.2)

/-- Embedding of `handleLocalUploadComplete` (src/server.ts).  The destination
file is opened with flag `"w"` (truncation) before any part is read, so the
returned destination content is whatever the loop wrote, even on failure.
On success the session directory is removed. -/
def handleLocalUploadComplete (rp : String → Option String) (rootReal : String)
    (sess : UploadSessionFS) (dest : Option (List Nat)) (totalChunks : Nat) :
    Option (List Nat) × UploadSessionFS × CompleteRes :=
  match sess.meta with
  | none => (dest, sess, .uploadNotFound)
  | some meta =>
    match resolveSafePath rp meta.path rootReal with
    | .err _ => (dest, sess, .pathNotFound)
    | .ok resolved =>
      let destPath := joinAbs resolved.fullPath meta.name
      if ¬ isWithinRoot destPath rootReal then (dest, sess, .invalidPath)
      else if meta.overwrite = false ∧ dest.isSome then (dest, sess, .fileExists)
      else
        let r := assembleLoop sess.part 1 totalChunks
        if r.2 then
          (some r.1, { dirExists := false, meta := none, part := fun _ => none }, .ok)
        else (some r.1, sess, .assembleFailed)

/-- Session used in the C2 failing input: only part 1 of 2 is present. -/
def c2Session : UploadSessionFS :=
  { dirExists := true
    meta := some { path := "/", name := "f.txt", overwrite := true }
    part := fun k => if k = 1 then some [7] else none }

/-- Realpath oracle for a root directory `/r` containing the destination. -/
def c2Realpath : String → Option String :=
  fun s => if s = "/r" then some "/r" else none

/-- C2: completing a local upload with a missing part does NOT fail with an
`Incomplete`-class error and does NOT leave the destination unchanged: the
handler truncates the destination, writes the present prefix, and returns the
500 `assembleFailed` response, so a destination previously holding `[1,2,3]`
ends up holding `[7]`. -/
theorem uploadComplete_incomplete_corrupts :
    (handleLocalUploadComplete c2Realpath "/r" c2Session (some [1, 2, 3]) 2).1 = some [7] ∧
    (handleLocalUploadComplete c2Realpath "/r" c2Session (some [1, 2, 3]) 2).2.2 =
      .assembleFailed ∧
    some [7] ≠ some [1, 2, 3] := by
  refine ⟨by rfl, by rfl, by decide⟩

/-- Replay a sequence of `handleLocalUploadChunk` calls (part number, bytes)
against a session. -/
def applyChunks (sess : UploadSessionFS) : List (Nat × List Nat) → UploadSessionFS
  | [] => sess
  | op :: rest => applyChunks (handleLocalUploadChunk sess op.1 op.2).1 rest

/-- The effect of a chunk sequence on the part-file map alone. -/
def partAfter (ops : List (Nat × List Nat)) (p0 : Nat → Option (List Nat)) :
    Nat → Option (List Nat) :=
  match ops with
  | [] => p0
  | op :: rest => partAfter rest (fun k => if k = op.1 then some op.2 else p0 k)

/-- The last chunk written for a given part number (latest re-send wins). -/
def lastWrite (ops : List (Nat × List Nat)) (n : Nat) : Option (List Nat) :=
  (ops.reverse.find? (fun op => op.1 == n)).map (·.2)

/-- Concatenation of parts `g i, g (i+1), ...` (`rem` many) in ascending order. -/
def concatParts (g : Nat → List Nat) : Nat → Nat → List Nat
  | _, 0 => []
  | i, rem + 1 => g i ++ concatParts g (i + 1) rem

theorem applyChunks_state (ops : List (Nat × List Nat)) :
    ∀ sess : UploadSessionFS, sess.dirExists = true →
      (applyChunks sess ops).dirExists = true ∧ (applyChunks sess ops).meta = sess.meta ∧
        (applyChunks sess ops).part = partAfter ops sess.part := by
  induction ops with
  | nil => intro sess _; exact ⟨by assumption, rfl, rfl⟩
  | cons op rest ih =>
    intro sess h
    have hstep : handleLocalUploadChunk sess op.1 op.2 =
        ({ sess with part := fun k => if k = op.1 then some op.2 else sess.part k }, true) := by
      unfold handleLocalUploadChunk
      rw [if_pos h]
    unfold applyChunks partAfter
    rw [hstep]
    exact ih _ h

theorem partAfter_lastWrite (ops : List (Nat × List Nat)) :
    ∀ (p0 : Nat → Option (List Nat)) (n : Nat),
      partAfter ops p0 n = (lastWrite ops n).or (p0 n) := by
  induction ops with
  | nil => intro p0 n; simp [partAfter, lastWrite]
  | cons op rest ih =>
    intro p0 n
    unfold partAfter
    rw [ih]
    unfold lastWrite
    rw [List.reverse_cons, List.find?_append]
    cases hfind : rest.reverse.find? (fun q => q.1 == n) with
    | some v => simp [hfind]
    | none =>
      by_cases hn : op.1 = n
      · subst hn
        simp [hfind]
      · simp [hfind, hn, Ne.symm hn]

theorem assembleLoop_ok (part : Nat → Option (List Nat)) (g : Nat → List Nat) :
    ∀ (rem i : Nat), (∀ j, i ≤ j → j < i + rem → part j = some (g j)) →
      assembleLoop part i rem = (concatParts g i rem, true) := by
  intro rem
  induction rem with
  | zero => intro i _; rfl
  | succ m ih =>
    intro i h
    have hi : part i = some (g i) := h i (Nat.le_refl i) (by omega)
    unfold assembleLoop concatParts
    rw [hi, ih (i + 1) (fun j h1 h2 => h j (by omega) (by omega))]

/-- C3: for any arrival order of the chunks, duplicate re-sends included (the
latest write for each part number wins), completing the upload writes the
destination as the concatenation of the `N` parts in ascending part-number
order and reports success. -/
theorem chunked_upload_order_independent :
    ∀ (rp : String → Option String) (rootReal : String) (meta : UploadMeta)
      (ops : List (Nat × List Nat)) (dest : Option (List Nat)) (N : Nat)
      (g : Nat → List Nat) (resolved : Resolved),
      resolveSafePath rp meta.path rootReal = .ok resolved →
      isWithinRoot (joinAbs resolved.fullPath meta.name) rootReal = true →
      (meta.overwrite = true ∨ dest = none) →
      (∀ j, 1 ≤ j → j < 1 + N → lastWrite ops j = some (g j)) →
      (handleLocalUploadComplete rp rootReal (applyChunks (initSession meta) ops) dest N).1 =
          some (concatParts g 1 N) ∧
        (handleLocalUploadComplete rp rootReal (applyChunks (initSession meta) ops) dest N).2.2 =
          .ok := by
  intro rp rootReal meta ops dest N g resolved hres hwithin hover hparts
  obtain ⟨hdir, hmeta, hpart⟩ := applyChunks_state ops (initSession meta) rfl
  have hsessmeta : (applyChunks (initSession meta) ops).meta = some meta := hmeta
  have hsesspart : ∀ j, 1 ≤ j → j < 1 + N →
      (applyChunks (initSession meta) ops).part j = some (g j) := by
    intro j h1 h2
    rw [hpart, partAfter_lastWrite, hparts j h1 h2]
    rfl
  have hloop : assembleLoop (applyChunks (initSession meta) ops).part 1 N =
      (concatParts g 1 N, true) := assembleLoop_ok _ g N 1 hsesspart
  unfold handleLocalUploadComplete
  rw [hsessmeta]
  dsimp only
  rw [hres]
  dsimp only
  rw [if_neg (by rw [hwithin]; intro hc; exact hc rfl)]
  rw [if_neg ?_, hloop]
  · exact ⟨rfl, rfl⟩
  · rcases hover with h | h
    · rintro ⟨h1, -⟩
      rw [h] at h1
      cases h1
    · rintro ⟨-, h2⟩
      rw [h] at h2
      cases h2

/-- Part contents for the C3 witness run. -/
def c3PartBytes : Nat → List Nat := fun j => if j = 1 then [1] else [9]

/-- Witness for C3: parts sent in the order 2, 1, then part 2 re-sent, yield
the concatenation of the latest part 1 and part 2 contents. -/
theorem chunked_upload_order_independent_witness :
    (handleLocalUploadComplete c2Realpath "/r"
        (applyChunks (initSession { path := "/", name := "f.txt", overwrite := true })
          [(2, [5]), (1, [1]), (2, [9])]) none 2).1 = some (concatParts c3PartBytes 1 2) ∧
      (handleLocalUploadComplete c2Realpath "/r"
          (applyChunks (initSession { path := "/", name := "f.txt", overwrite := true })
            [(2, [5]), (1, [1]), (2, [9])]) none 2).2.2 = .ok :=
  chunked_upload_order_independent c2Realpath "/r"
    { path := "/", name := "f.txt", overwrite := true }
    [(2, [5]), (1, [1]), (2, [9])] none 2 c3PartBytes ⟨"/", "/r"⟩
    (by rfl) (by rfl) (Or.inl rfl)
    (by intro j h1 h2; interval_cases j <;> rfl)

/-! ### Upload status (local readdir parse, S3 ListParts) -/

/-- Decimal digit character for a value below ten. -/
def digitChar (m : Nat) : Char :=
  match m with
  | 0 => '0'
  | 1 => '1'
  | 2 => '2'
  | 3 => '3'
  | 4 => '4'
  | 5 => '5'
  | 6 => '6'
  | 7 => '7'
  | 8 => '8'
  | _ => '9'

/-- Decimal rendering loop (most significant digit first, onto `acc`). -/
def natToCharsAux (n : Nat) (acc : List Char) : List Char :=
  if h : n = 0 then acc
  else natToCharsAux (n / 10) (digitChar (n % 10) :: acc)
termination_by n
decreasing_by exact Nat.div_lt_self (Nat.pos_of_ne_zero h) (by decide)

/-- JS number-to-string for a natural number, as used by the template literal
building `{partNumber}.part` file names. -/
def natToChars (n : Nat) : List Char :=
  if n = 0 then ['0'] else natToCharsAux n []

/-- Value of a most-significant-first digit string, continuing from `v`. -/
def digitsToNatAux (v : Nat) (cs : List Char) : Nat :=
  cs.foldl (fun a c => a * 10 + (c.toNat - 48)) v

/-- Number of decimal digits produced by `natToCharsAux`. -/
def numDigits (n : Nat) : Nat :=
  if h : n = 0 then 0 else numDigits (n / 10) + 1
termination_by n
decreasing_by exact Nat.div_lt_self (Nat.pos_of_ne_zero h) (by decide)

/-- Tail of JS `Number.parseInt(s, 10)` after the optional sign: requires a
leading digit, consumes the digit run, ignores the rest. -/
def jsParseIntTail (cs : List Char) (sign : Int) : Option Int :=
  match cs with
  | [] => none
  | c :: _ =>
    if c.isDigit then some (sign * Int.ofNat (digitsToNatAux 0 (cs.takeWhile Char.isDigit)))
    else none

/-- Model of JS `Number.parseInt(s, 10)` (`none` = `NaN`). -/
def jsParseInt (cs0 : List Char) : Option Int :=
  let cs := cs0.dropWhile isJsSpace
  match cs with
  | [] => none
  | c :: rest =>
    if c = '-' then jsParseIntTail rest (-1)
    else if c = '+' then jsParseIntTail rest 1
    else jsParseIntTail (c :: rest) 1

/-- The characters of the `.part` suffix. -/
def dotPart : List Char := ['.', 'p', 'a', 'r', 't']

/-- JS `name.replace(/\.part$/, "")`. -/
def removePartSuffix (cs : List Char) : List Char :=
  if dotPart.isSuffixOf cs then cs.take (cs.length - 5) else cs

/-- Result of an upload-status query. -/
inductive StatusRes where
  | ok (uploadedParts : List Int)
  | notFound
  deriving DecidableEq

/-- Embedding of `handleLocalUploadStatus` (src/server.ts): `entries` is the
`readdir` result of the session temp directory (`none` models the thrown
error for a missing directory, answered with 404).  The JS
`map parseInt` + `filter isFinite` pair is one `filterMap`. -/
def handleLocalUploadStatus (entries : Option (List String)) : StatusRes :=
  match entries with
  | none => .notFound
  | some es =>
    .ok ((es.filter fun name => dotPart.isSuffixOf name.data).filterMap
      fun name => jsParseInt (removePartSuffix name.data))

/-- Embedding of `handleS3UploadStatus` (src/server.ts): the argument is the
`ListParts` response (`none` models the NotFound error, answered with 404),
each entry an optional `PartNumber`; non-finite entries are dropped. -/
def handleS3UploadStatus (listPartsResult : Option (List (Option Int))) : StatusRes :=
  match listPartsResult with
  | none => .notFound
  | some parts => .ok (parts.filterMap id)

/-- Directory listing of a live local session whose uploaded parts are
`parts`: the metadata file plus one `{n}.part` file per part. -/
def statusEntries (parts : List Nat) : List String :=
  "meta.json" :: parts.map fun n => ⟨natToChars n ++ dotPart⟩

theorem digitChar_isDigit (m : Nat) : (digitChar m).isDigit = true := by
  unfold digitChar
  split <;> decide

theorem digitChar_val (m : Nat) (h : m < 10) : (digitChar m).toNat - 48 = m := by
  interval_cases m <;> rfl

theorem digit_not_space (c : Char) (h : c.isDigit = true) : isJsSpace c = false := by
  unfold isJsSpace
  simp only [Bool.or_eq_false_iff, decide_eq_false_iff_not]
  refine ⟨⟨⟨⟨⟨?_, ?_⟩, ?_⟩, ?_⟩, ?_⟩, ?_⟩ <;> rintro rfl <;> exact absurd h (by decide)

theorem digitsToNatAux_cons (v : Nat) (c : Char) (l : List Char) :
    digitsToNatAux v (c :: l) = digitsToNatAux (v * 10 + (c.toNat - 48)) l := by
  simp [digitsToNatAux]

theorem natToCharsAux_digits (n : Nat) :
    ∀ (v : Nat) (acc : List Char),
      digitsToNatAux v (natToCharsAux n acc) =
        digitsToNatAux (v * 10 ^ numDigits n + n) acc := by
  induction n using Nat.strong_induction_on with
  | _ n ih =>
    intro v acc
    by_cases h : n = 0
    · subst h
      rw [natToCharsAux, numDigits]
      simp
    · rw [natToCharsAux, dif_neg h, numDigits, dif_neg h]
      have hih := ih (n / 10) (Nat.div_lt_self (Nat.pos_of_ne_zero h) (by decide)) v
        (digitChar (n % 10) :: acc)
      rw [hih, digitsToNatAux_cons]
      congr 1
      rw [digitChar_val (n % 10) (Nat.mod_lt n (by decide))]
      have hring : (v * 10 ^ numDigits (n / 10) + n / 10) * 10 + n % 10 =
          v * (10 ^ numDigits (n / 10) * 10) + (n / 10 * 10 + n % 10) := by ring
      rw [hring, pow_succ]
      congr 1
      omega

theorem natToChars_value (n : Nat) : digitsToNatAux 0 (natToChars n) = n := by
  unfold natToChars
  by_cases h : n = 0
  · subst h; rfl
  · rw [if_neg h, natToCharsAux_digits]
    simp [digitsToNatAux]

theorem natToCharsAux_mem (n : Nat) :
    ∀ (acc : List Char), (∀ c ∈ acc, c.isDigit = true) →
      ∀ c ∈ natToCharsAux n acc, c.isDigit = true := by
  induction n using Nat.strong_induction_on with
  | _ n ih =>
    intro acc hacc c hc
    by_cases h : n = 0
    · subst h
      rw [natToCharsAux] at hc
      exact hacc c (by simpa using hc)
    · rw [natToCharsAux, dif_neg h] at hc
      refine ih (n / 10) (Nat.div_lt_self (Nat.pos_of_ne_zero h) (by decide)) _ ?_ c hc
      intro d hd
      rcases List.mem_cons.mp hd with h1 | h2
      · rw [h1]; exact digitChar_isDigit _
      · exact hacc d h2

theorem natToChars_digits (n : Nat) : ∀ c ∈ natToChars n, c.isDigit = true := by
  unfold natToChars
  by_cases h : n = 0
  · rw [if_pos h]; intro c hc; simp at hc; rw [hc]; decide
  · rw [if_neg h]
    exact natToCharsAux_mem n [] (by intro c hc; cases hc)

theorem natToCharsAux_ne_nil (n : Nat) :
    ∀ acc : List Char, acc ≠ [] → natToCharsAux n acc ≠ [] := by
  induction n using Nat.strong_induction_on with
  | _ n ih =>
    intro acc hacc
    by_cases h : n = 0
    · rw [natToCharsAux, dif_pos h]; exact hacc
    · rw [natToCharsAux, dif_neg h]
      exact ih (n / 10) (Nat.div_lt_self (Nat.pos_of_ne_zero h) (by decide)) _ (by simp)

theorem natToChars_ne_nil (n : Nat) : natToChars n ≠ [] := by
  unfold natToChars
  by_cases h : n = 0
  · rw [if_pos h]; simp
  · rw [if_neg h, natToCharsAux, dif_neg h]
    exact natToCharsAux_ne_nil _ _ (by simp)

theorem dropWhile_of_all_false {p : Char → Bool} :
    ∀ cs : List Char, (∀ c ∈ cs, p c = false) → cs.dropWhile p = cs := by
  intro cs h
  cases cs with
  | nil => rfl
  | cons c rest =>
    rw [List.dropWhile_cons, if_neg]
    rw [h c (by simp)]
    simp

theorem takeWhile_of_all_true {p : Char → Bool} :
    ∀ cs : List Char, (∀ c ∈ cs, p c = true) → cs.takeWhile p = cs := by
  intro cs h
  induction cs with
  | nil => rfl
  | cons c rest ih =>
    rw [List.takeWhile_cons, if_pos (h c (by simp))]
    rw [ih (fun d hd => h d (List.mem_cons_of_mem c hd))]

theorem jsParseInt_natToChars (n : Nat) : jsParseInt (natToChars n) = some (Int.ofNat n) := by
  have hdigits := natToChars_digits n
  have hdrop : (natToChars n).dropWhile isJsSpace = natToChars n :=
    dropWhile_of_all_false _ (fun c hc => digit_not_space c (hdigits c hc))
  unfold jsParseInt
  rw [hdrop]
  cases hcs : natToChars n with
  | nil => exact absurd hcs (natToChars_ne_nil n)
  | cons c rest =>
    have hc : c.isDigit = true := hdigits c (by rw [hcs]; simp)
    have hcm : c ≠ '-' := by rintro rfl; exact absurd hc (by decide)
    have hcp : c ≠ '+' := by rintro rfl; exact absurd hc (by decide)
    dsimp only
    rw [if_neg hcm, if_neg hcp]
    unfold jsParseIntTail
    dsimp only
    rw [if_pos hc]
    have htake : (c :: rest).takeWhile Char.isDigit = c :: rest :=
      takeWhile_of_all_true _ (fun d hd => hdigits d (by rw [hcs]; exact hd))
    rw [htake, ← hcs, natToChars_value]
    simp

theorem removePartSuffix_append (cs : List Char) :
    removePartSuffix (cs ++ dotPart) = cs := by
  unfold removePartSuffix
  rw [if_pos (by rw [List.isSuffixOf_iff_suffix]; exact List.suffix_append cs dotPart)]
  have : (cs ++ dotPart).length - 5 = cs.length := by
    rw [List.length_append]
    rfl
  rw [this, List.take_left]

/-- C7 counterexample: a status query whose upload state is missing fails with
the 404 NotFound response in both modes instead of returning the empty
"resume from scratch" part set. -/
theorem uploadStatus_missing_fails :
    handleLocalUploadStatus none = .notFound ∧ handleS3UploadStatus none = .notFound ∧
      (StatusRes.notFound ≠ .ok []) :=
  ⟨rfl, rfl, by decide⟩

/-- C7 (amended): a status query for a missing/unknown uploadId fails with a
NotFound error in both modes; for a live session the (possibly empty) set of
completed part numbers is returned. -/
theorem uploadStatus_amended :
    handleLocalUploadStatus none = .notFound ∧
      handleS3UploadStatus none = .notFound ∧
      (∀ parts : List Nat,
        handleLocalUploadStatus (some (statusEntries parts)) = .ok (parts.map Int.ofNat)) ∧
      (∀ parts : List Int, handleS3UploadStatus (some (parts.map some)) = .ok parts) := by
  refine ⟨rfl, rfl, ?_, ?_⟩
  · intro parts
    unfold handleLocalUploadStatus statusEntries
    dsimp only
    congr 1
    rw [List.filter_cons, if_neg (by decide)]
    induction parts with
    | nil => rfl
    | cons n rest ih =>
      rw [List.map_cons, List.filter_cons, if_pos ?_, List.filterMap_cons, List.map_cons]
      · have hname : (⟨natToChars n ++ dotPart⟩ : String).data = natToChars n ++ dotPart := rfl
        rw [hname, removePartSuffix_append, jsParseInt_natToChars]
        rw [ih]
      · show dotPart.isSuffixOf (⟨natToChars n ++ dotPart⟩ : String).data = true
        rw [List.isSuffixOf_iff_suffix]
        exact List.suffix_append _ _
  · intro parts
    unfold handleS3UploadStatus
    dsimp only
    congr 1
    simp

/-- Witness for C7's amended theorem at a concrete part set. -/
theorem uploadStatus_amended_witness :
    handleLocalUploadStatus (some (statusEntries [2, 1])) = .ok [2, 1] ∧
      handleS3UploadStatus (some [some 3, none]) = .ok [3] :=
  ⟨uploadStatus_amended.2.2.1 [2, 1], by rfl⟩

/-! ### Structure of normalized paths (Path Normalizer) -/

theorem splitSeg_ne_nil : ∀ cs : List Char, splitSeg cs ≠ [] := by
  intro cs
  cases cs with
  | nil => simp [splitSeg]
  | cons c rest =>
    rw [splitSeg]
    by_cases h : c = '/'
    · rw [if_pos h]; simp
    · rw [if_neg h]
      cases hs : splitSeg rest <;> simp

theorem mem_splitSeg_no_slash : ∀ (cs : List Char) (s : List Char),
    s ∈ splitSeg cs → '/' ∉ s := by
  intro cs
  induction cs with
  | nil =>
    intro s hs
    simp [splitSeg] at hs
    simp [hs]
  | cons c rest ih =>
    intro s hs
    rw [splitSeg] at hs
    by_cases h : c = '/'
    · rw [if_pos h] at hs
      rcases List.mem_cons.mp hs with h1 | h2
      · simp [h1]
      · exact ih s h2
    · rw [if_neg h] at hs
      cases hsr : splitSeg rest with
      | nil => exact absurd hsr (splitSeg_ne_nil rest)
      | cons t ts =>
        rw [hsr] at hs
        rcases List.mem_cons.mp hs with h1 | h2
        · subst h1
          intro hmem
          rcases List.mem_cons.mp hmem with h3 | h4
          · exact h h3.symm
          · exact ih t (by rw [hsr]; simp) h4
        · exact ih s (by rw [hsr]; simp [h2])

theorem normSegs_mem : ∀ (input stack : List (List Char)) (x : List Char),
    x ∈ normSegs stack input →
      x ∈ stack ∨ (x ∈ input ∧ x ≠ [] ∧ x ≠ ['.'] ∧ x ≠ ['.', '.']) := by
  intro input
  induction input with
  | nil =>
    intro stack x hx
    rw [normSegs] at hx
    exact Or.inl (List.mem_reverse.mp hx)
  | cons s rest ih =>
    intro stack x hx
    rw [normSegs] at hx
    by_cases h1 : s = [] ∨ s = ['.']
    · rw [if_pos h1] at hx
      rcases ih stack x hx with h | ⟨hm, hg⟩
      · exact Or.inl h
      · exact Or.inr ⟨List.mem_cons_of_mem s hm, hg⟩
    · rw [if_neg h1] at hx
      by_cases h2 : s = ['.', '.']
      · rw [if_pos h2] at hx
        rcases ih (stack.drop 1) x hx with h | ⟨hm, hg⟩
        · exact Or.inl (List.drop_subset 1 stack h)
        · exact Or.inr ⟨List.mem_cons_of_mem s hm, hg⟩
      · rw [if_neg h2] at hx
        rcases ih (s :: stack) x hx with h | ⟨hm, hg⟩
        · rcases List.mem_cons.mp h with h3 | h4
          · subst h3
            push_neg at h1
            exact Or.inr ⟨List.mem_cons_self x rest, h1.1, h1.2, h2⟩
          · exact Or.inl h4
        · exact Or.inr ⟨List.mem_cons_of_mem s hm, hg⟩

theorem splitSeg_prepend_seg : ∀ (s cs : List Char), '/' ∉ s →
    splitSeg (s ++ '/' :: cs) = s :: splitSeg cs := by
  intro s
  induction s with
  | nil =>
    intro cs _
    rw [List.nil_append, splitSeg, if_pos rfl]
  | cons c s' ih =>
    intro cs hs
    have hc : c ≠ '/' := by
      intro h
      exact hs (by rw [h]; simp)
    have hs' : '/' ∉ s' := fun h => hs (List.mem_cons_of_mem c h)
    rw [List.cons_append, splitSeg, if_neg hc, ih cs hs']

theorem splitSeg_no_slash : ∀ s : List Char, '/' ∉ s → splitSeg s = [s] := by
  intro s
  induction s with
  | nil => intro _; rfl
  | cons c s' ih =>
    intro hs
    have hc : c ≠ '/' := fun h => hs (by rw [h]; simp)
    have hs' : '/' ∉ s' := fun h => hs (List.mem_cons_of_mem c h)
    rw [splitSeg, if_neg hc, ih hs']

theorem joinSeg_cons_cons (s t : List Char) (ts : List (List Char)) :
    joinSeg (s :: t :: ts) = s ++ '/' :: joinSeg (t :: ts) := rfl

theorem joinSeg_singleton (s : List Char) : joinSeg [s] = s := rfl

theorem splitSeg_cons_slash (cs : List Char) : splitSeg ('/' :: cs) = [] :: splitSeg cs := by
  rw [splitSeg, if_pos rfl]

theorem splitSeg_joinSeg_append : ∀ (segs : List (List Char)) (cs : List Char),
    segs ≠ [] → (∀ s ∈ segs, '/' ∉ s) →
      splitSeg (joinSeg segs ++ '/' :: cs) = segs ++ splitSeg cs := by
  intro segs
  induction segs with
  | nil => intro cs h; exact absurd rfl h
  | cons s rest ih =>
    intro cs _ hall
    cases rest with
    | nil =>
      rw [joinSeg]
      rw [splitSeg_prepend_seg s cs (hall s (by simp))]
      rfl
    | cons t ts =>
      rw [joinSeg_cons_cons, List.append_assoc, List.cons_append]
      rw [splitSeg_prepend_seg s _ (hall s (by simp))]
      rw [ih cs (List.cons_ne_nil t ts) (fun u hu => hall u (List.mem_cons_of_mem s hu))]
      rfl

theorem splitSeg_joinSeg : ∀ segs : List (List Char),
    segs ≠ [] → (∀ s ∈ segs, '/' ∉ s) → splitSeg (joinSeg segs) = segs := by
  intro segs
  induction segs with
  | nil => intro h; exact absurd rfl h
  | cons s rest ih =>
    intro _ hall
    cases rest with
    | nil => rw [joinSeg, splitSeg_no_slash s (hall s (by simp))]
    | cons t ts =>
      rw [joinSeg_cons_cons, splitSeg_prepend_seg s _ (hall s (by simp))]
      rw [ih (List.cons_ne_nil t ts) (fun u hu => hall u (List.mem_cons_of_mem s hu))]

theorem posixNormalizeAbs_head (cs : List Char) :
    (posixNormalizeAbs cs).head? = some '/' := by
  unfold posixNormalizeAbs
  dsimp only
  split <;> rfl

/-- Every element of the split of a normalized absolute path is either an empty
segment (the leading one, or a trailing one from a preserved trailing slash) or
a real, slash-free, non-dot segment. -/
theorem posixNormalizeAbs_segments (cs : List Char) :
    ∀ seg ∈ splitSeg (posixNormalizeAbs cs),
      seg = [] ∨ ('/' ∉ seg ∧ seg ≠ ['.'] ∧ seg ≠ ['.', '.']) := by
  unfold posixNormalizeAbs
  intro seg hseg
  dsimp only at hseg
  have hgood : ∀ x ∈ normSegs [] (splitSeg cs),
      '/' ∉ x ∧ x ≠ [] ∧ x ≠ ['.'] ∧ x ≠ ['.', '.'] := by
    intro x hx
    rcases normSegs_mem (splitSeg cs) [] x hx with h | ⟨hm, hg⟩
    · cases h
    · exact ⟨mem_splitSeg_no_slash cs x hm, hg⟩
  split at hseg
  · simp [splitSeg] at hseg
    exact Or.inl hseg
  · rename_i hne
    have hslash : ∀ s ∈ normSegs [] (splitSeg cs), '/' ∉ s :=
      fun s hs => (hgood s hs).1
    rw [List.cons_append, splitSeg_cons_slash] at hseg
    rcases List.mem_cons.mp hseg with h | h
    · exact Or.inl h
    · by_cases htr : cs.getLast? = some '/'
      · rw [if_pos htr, splitSeg_joinSeg_append _ [] hne hslash] at h
        rcases List.mem_append.mp h with h1 | h2
        · exact Or.inr ⟨hslash seg h1, (hgood seg h1).2.2⟩
        · simp [splitSeg] at h2
          exact Or.inl h2
      · rw [if_neg htr, List.append_nil, splitSeg_joinSeg _ hne hslash] at h
        exact Or.inr ⟨hslash seg h, (hgood seg h).2.2⟩

/-- C4 counterexample: the normalizer preserves a trailing slash, so the
result for `/a/` is `/a/`, which is not the root yet ends in a separator,
contradicting the claimed no-trailing-slash invariant. -/
theorem normalizeRequestPath_trailing_slash :
    normalizeRequestPath "/a/" = "/a/" ∧ ("/a/" : String) ≠ "/" ∧
      ("/a/" : String).data.getLast? = some '/' := by
  refine ⟨by decide, by decide, by decide⟩

/-- C4 (amended): the normalizer is total, always yields a `/`-rooted path with
no `.` or `..` segments (excess `..` are absorbed at the virtual root), but a
trailing separator of the input survives on non-root results. -/
theorem normalizeRequestPath_shape :
    ∀ s : String, (normalizeRequestPath s).data.head? = some '/' ∧
      ∀ seg ∈ splitSeg (normalizeRequestPath s).data, seg ≠ ['.'] ∧ seg ≠ ['.', '.'] := by
  intro s
  unfold normalizeRequestPath normalizeRequestPathChars
  dsimp only
  rw [if_pos (posixNormalizeAbs_head _)]
  refine ⟨posixNormalizeAbs_head _, ?_⟩
  intro seg hseg
  rcases posixNormalizeAbs_segments _ seg hseg with h | h
  · subst h
    exact ⟨by simp, by simp⟩
  · exact h.2

/-- Witness for C4's amended theorem at a concrete input with backslashes,
dot segments and excess parent segments. -/
theorem normalizeRequestPath_shape_witness :
    (normalizeRequestPath "..\\..\\a\\./b").data.head? = some '/' ∧
      (['a'] ≠ ['.'] ∧ ['a'] ≠ ['.', '.']) :=
  ⟨(normalizeRequestPath_shape "..\\..\\a\\./b").1,
    (normalizeRequestPath_shape "..\\..\\a\\./b").2 ['a'] (by decide)⟩

/-! ### Directory listing order (GET /api/list and listS3Entries) -/

/-- Type of a directory entry. -/
inductive EntryType where
  | dir
  | file
  deriving DecidableEq

/-- A listing entry as sorted by the handlers (name and type decide the order). -/
structure DirEntry where
  name : String
  type : EntryType
  deriving DecidableEq

/-- Model of ICU `localeCompare(..., { sensitivity: "base" })` restricted to
ASCII names: base-level collation ignores case, so compare the case-folded
character sequences lexicographically. -/
def localeCompareBase (a b : String) : Ordering :=
  compare (a.data.map Char.toLower) (b.data.map Char.toLower)

/-- The sort comparator shared by the local `/api/list` handler and
`listS3Entries`: directories before files, then base-sensitivity locale
comparison of the names. -/
def entryCmp (a b : DirEntry) : Ordering :=
  if a.type ≠ b.type then (if a.type = .dir then .lt else .gt)
  else localeCompareBase a.name b.name

/-- Non-strict order induced by the comparator (JS sort keeps `a` before `b`
when the comparator is not positive). -/
def entryLe (a b : DirEntry) : Bool :=
  entryCmp a b ≠ .gt

/-- Model of `entries.sort(comparator)`: JS `Array.prototype.sort` is a stable
comparison sort, modelled by stable merge sort. -/
def sortEntries (l : List DirEntry) : List DirEntry :=
  l.mergeSort entryLe

/-- The total order asserted by the claim: directories before files,
case-insensitive order, and ties between case-insensitively equal names broken
by raw byte order of the names. -/
def claimedLe (a b : DirEntry) : Bool :=
  if a.type ≠ b.type then a.type = .dir
  else
    match localeCompareBase a.name b.name with
    | .lt => true
    | .gt => false
    | .eq => compare a.name.data b.name.data ≠ .gt

theorem entryLe_trans : ∀ a b c : DirEntry,
    entryLe a b = true → entryLe b c = true → entryLe a c = true := by
  rintro ⟨na, ta⟩ ⟨nb, tb⟩ ⟨nc, tc⟩ hab hbc
  cases ta <;> cases tb <;> cases tc <;>
    simp [entryLe, entryCmp, localeCompareBase, compare_le_iff_le] at * <;>
    try exact le_trans hab hbc

theorem entryLe_total : ∀ a b : DirEntry, (entryLe a b || entryLe b a) = true := by
  rintro ⟨na, ta⟩ ⟨nb, tb⟩
  cases ta <;> cases tb <;>
    simp [entryLe, entryCmp, localeCompareBase, compare_le_iff_le] <;>
    exact le_total _ _

/-- C9 counterexample: for two files named `a` and `A` (case-insensitively
equal), the stable sort keeps the input order `a, A`, which violates the
claimed raw-byte-order tie-break (`A` = 0x41 sorts before `a` = 0x61). -/
theorem listSort_tie_not_byte_order :
    sortEntries [⟨"a", .file⟩, ⟨"A", .file⟩] = [⟨"a", .file⟩, ⟨"A", .file⟩] ∧
      ¬ List.Pairwise (fun x y => claimedLe x y = true)
        (sortEntries [⟨"a", .file⟩, ⟨"A", .file⟩]) := by
  have hle : entryLe ⟨"a", .file⟩ ⟨"A", .file⟩ = true := by decide
  have hsub : [(⟨"a", .file⟩ : DirEntry), ⟨"A", .file⟩].Sublist
      (List.mergeSort [⟨"a", .file⟩, ⟨"A", .file⟩] entryLe) :=
    List.mergeSort_stable_pair entryLe_trans entryLe_total hle (List.Sublist.refl _)
  have hlen : (List.mergeSort [(⟨"a", .file⟩ : DirEntry), ⟨"A", .file⟩] entryLe).length = 2 :=
    (List.mergeSort_perm _ entryLe).length_eq
  have heq : sortEntries [⟨"a", .file⟩, ⟨"A", .file⟩] = [⟨"a", .file⟩, ⟨"A", .file⟩] :=
    (hsub.eq_of_length (by rw [hlen]; rfl)).symm
  refine ⟨heq, ?_⟩
  rw [heq]
  intro hpair
  have := List.rel_of_pairwise_cons hpair (List.mem_singleton.mpr rfl)
  exact absurd this (by decide)

/-- C9 (amended): the listing sort returns a permutation of its input, ordered
with directories before files and case-insensitively by name within each
group; entries whose names are case-insensitively equal keep their relative
input order (stable sort) instead of being re-ordered by raw byte order. -/
theorem listSort_spec :
    ∀ l : List DirEntry,
      (sortEntries l).Perm l ∧
        List.Pairwise (fun a b => entryLe a b = true) (sortEntries l) ∧
        ∀ a b : DirEntry, entryLe a b = true → [a, b].Sublist l →
          [a, b].Sublist (sortEntries l) := by
  intro l
  refine ⟨List.mergeSort_perm l entryLe, ?_, ?_⟩
  · exact List.sorted_mergeSort entryLe_trans entryLe_total l
  · intro a b hab hsub
    exact List.mergeSort_stable_pair entryLe_trans entryLe_total hab hsub

/-- Witness for C9's amended theorem on a concrete listing. -/
theorem listSort_spec_witness :
    (sortEntries [⟨"b", .file⟩, ⟨"B", .file⟩]).Perm [⟨"b", .file⟩, ⟨"B", .file⟩] ∧
      [(⟨"b", EntryType.file⟩ : DirEntry), ⟨"B", .file⟩].Sublist
        (sortEntries [⟨"b", .file⟩, ⟨"B", .file⟩]) :=
  ⟨(listSort_spec [⟨"b", .file⟩, ⟨"B", .file⟩]).1,
    (listSort_spec [⟨"b", .file⟩, ⟨"B", .file⟩]).2.2 ⟨"b", .file⟩ ⟨"B", .file⟩
      (by decide) (List.Sublist.refl _)⟩

/-! ### Sanitized names create direct children (mkdir, upload, trash) -/

theorem dropWhile_cons_false {p : Char → Bool} (c : Char) (t : List Char) (h : p c = false) :
    (c :: t).dropWhile p = c :: t := by
  rw [List.dropWhile_cons, h]
  simp

theorem dropWhile_append_stop {p : Char → Bool} :
    ∀ (l : List Char) (c : Char) (m : List Char), (∀ x ∈ l, p x = true) → p c = false →
      (l ++ c :: m).dropWhile p = c :: m := by
  intro l
  induction l with
  | nil =>
    intro c m _ hc
    rw [List.nil_append]
    exact dropWhile_cons_false c m hc
  | cons a t ih =>
    intro c m hall hc
    rw [List.cons_append, List.dropWhile_cons, hall a (by simp)]
    exact ih c m (fun x hx => hall x (List.mem_cons_of_mem a hx)) hc

theorem takeWhile_append_stop {p : Char → Bool} :
    ∀ (l : List Char) (c : Char) (m : List Char), (∀ x ∈ l, p x = true) → p c = false →
      (l ++ c :: m).takeWhile p = l := by
  intro l
  induction l with
  | nil =>
    intro c m _ hc
    rw [List.nil_append, List.takeWhile_cons, hc]
    simp
  | cons a t ih =>
    intro c m hall hc
    rw [List.cons_append, List.takeWhile_cons, hall a (by simp)]
    simp only [ite_true]
    rw [ih c m (fun x hx => hall x (List.mem_cons_of_mem a hx)) hc]

theorem dropWhile_all_true {p : Char → Bool} :
    ∀ l : List Char, (∀ x ∈ l, p x = true) → l.dropWhile p = [] := by
  intro l
  induction l with
  | nil => intro _; rfl
  | cons a t ih =>
    intro hall
    rw [List.dropWhile_cons, hall a (by simp)]
    simp only [ite_true]
    exact ih (fun x hx => hall x (List.mem_cons_of_mem a hx))

theorem normSegs_id : ∀ (input stack : List (List Char)),
    (∀ x ∈ input, x ≠ [] ∧ x ≠ ['.'] ∧ x ≠ ['.', '.']) →
      normSegs stack input = stack.reverse ++ input := by
  intro input
  induction input with
  | nil => intro stack _; rw [normSegs]; simp
  | cons s rest ih =>
    intro stack hall
    obtain ⟨h1, h2, h3⟩ := hall s (by simp)
    rw [normSegs, if_neg (by simp [h1, h2]), if_neg h3]
    rw [ih (s :: stack) (fun x hx => hall x (List.mem_cons_of_mem s hx))]
    simp

theorem joinSeg_append_singleton : ∀ (segs : List (List Char)) (x : List Char),
    segs ≠ [] → joinSeg (segs ++ [x]) = joinSeg segs ++ '/' :: x := by
  intro segs
  induction segs with
  | nil => intro x h; exact absurd rfl h
  | cons s rest ih =>
    intro x _
    cases rest with
    | nil => rfl
    | cons t ts =>
      have h1 : joinSeg ((s :: t :: ts) ++ [x]) = s ++ '/' :: joinSeg ((t :: ts) ++ [x]) := rfl
      rw [h1, ih x (List.cons_ne_nil t ts), joinSeg_cons_cons]
      simp

theorem joinSeg_ne_nil : ∀ segs : List (List Char),
    segs ≠ [] → (∀ s ∈ segs, s ≠ []) → joinSeg segs ≠ [] := by
  intro segs
  induction segs with
  | nil => intro h; exact absurd rfl h
  | cons s rest _ =>
    intro _ hall
    cases rest with
    | nil => exact hall s (by simp)
    | cons t ts =>
      rw [joinSeg_cons_cons]
      intro hcontra
      rcases List.append_eq_nil.mp hcontra with ⟨h1, -⟩
      exact hall s (by simp) h1

theorem getLast?_mem_of_ne_nil : ∀ l : List Char, l ≠ [] →
    ∃ c, l.getLast? = some c ∧ c ∈ l := by
  intro l
  induction l with
  | nil => intro h; exact absurd rfl h
  | cons a t ih =>
    intro _
    cases t with
    | nil => exact ⟨a, rfl, by simp⟩
    | cons b ts =>
      obtain ⟨c, hc, hm⟩ := ih (List.cons_ne_nil b ts)
      exact ⟨c, by rw [List.getLast?_cons_cons]; exact hc, List.mem_cons_of_mem a hm⟩

theorem append_slash_getLast (l n : List Char) (hn : n ≠ []) (hns : '/' ∉ n) :
    (l ++ '/' :: n).getLast? ≠ some '/' := by
  obtain ⟨c, hc, hm⟩ := getLast?_mem_of_ne_nil n hn
  have hlast : (l ++ '/' :: n).getLast? = some c := by
    rw [List.getLast?_append]
    cases n with
    | nil => exact absurd rfl hn
    | cons b ts =>
      rw [List.getLast?_cons_cons, hc]
      rfl
  rw [hlast]
  intro h
  injection h with h
  rw [h] at hm
  exact hns hm

/-- Bases accepted by `sanitizeName`: nonempty, slash-free, not a dot segment. -/
def GoodSeg (n : List Char) : Prop :=
  n ≠ [] ∧ '/' ∉ n ∧ '\\' ∉ n ∧ n ≠ ['.'] ∧ n ≠ ['.', '.']

/-- Shape of the canonical absolute paths produced by `realpath`: the root
itself, or a slash-joined sequence of real, slash-free, non-dot segments with
no trailing separator. -/
def CanonicalAbs (p : String) : Prop :=
  p = "/" ∨ ∃ segs : List (List Char), segs ≠ [] ∧
    (∀ s ∈ segs, s ≠ [] ∧ '/' ∉ s ∧ s ≠ ['.'] ∧ s ≠ ['.', '.']) ∧
    p.data = '/' :: joinSeg segs

theorem posixBasename_append_child (l n : List Char) (hn : n ≠ []) (hns : '/' ∉ n) :
    posixBasename (l ++ '/' :: n) = n := by
  unfold posixBasename
  dsimp only
  have hrev : (l ++ '/' :: n).reverse = n.reverse ++ '/' :: l.reverse := by
    rw [List.reverse_append, List.reverse_cons, List.append_assoc]
    simp
  rw [hrev]
  have hdrop : ((n.reverse ++ '/' :: l.reverse).dropWhile fun x => decide (x = '/')) =
      n.reverse ++ '/' :: l.reverse := by
    cases hrn : n.reverse with
    | nil => exact absurd (by simpa using hrn) hn
    | cons a t =>
      rw [List.cons_append]
      refine dropWhile_cons_false a _ ?_
      simp only [decide_eq_false_iff_not]
      intro hxe
      have ha : a ∈ n.reverse := by rw [hrn]; simp
      rw [hxe] at ha
      exact hns (List.mem_reverse.mp ha)
  rw [hdrop]
  rw [takeWhile_append_stop n.reverse '/' l.reverse ?_ (by simp)]
  · exact List.reverse_reverse n
  · intro x hx
    simp only [decide_eq_true_eq]
    intro hxe
    rw [hxe] at hx
    exact hns (List.mem_reverse.mp hx)

theorem posixDirname_root_child (n : List Char) (_hn : n ≠ []) (hns : '/' ∉ n) :
    posixDirname ('/' :: n) = ['/'] := by
  unfold posixDirname
  dsimp only
  have h2 : (n.reverse.dropWhile (fun x => decide (x = '/'))) = n.reverse := by
    cases hrn : n.reverse with
    | nil => rfl
    | cons a t =>
      refine dropWhile_cons_false a t ?_
      simp only [decide_eq_false_iff_not]
      intro hxe
      have : a ∈ n.reverse := by rw [hrn]; simp
      rw [hxe] at this
      exact hns (List.mem_reverse.mp this)
  have h3 : (n.reverse.dropWhile fun x => decide ¬x = '/') = [] := by
    refine dropWhile_all_true n.reverse ?_
    intro x hx
    simp only [decide_eq_true_eq]
    intro hxe
    rw [hxe] at hx
    exact hns (List.mem_reverse.mp hx)
  rw [List.drop_one, List.tail_cons, h2, h3]
  simp

theorem posixDirname_deep_child (m n : List Char) (hm : m ≠ []) (hn : n ≠ [])
    (hns : '/' ∉ n) : posixDirname ('/' :: (m ++ '/' :: n)) = '/' :: m := by
  unfold posixDirname
  dsimp only
  rw [List.drop_one, List.tail_cons]
  have hrev : (m ++ '/' :: n).reverse = n.reverse ++ '/' :: m.reverse := by
    rw [List.reverse_append, List.reverse_cons, List.append_assoc]
    simp
  rw [hrev]
  have h2 : ((n.reverse ++ '/' :: m.reverse).dropWhile fun x => decide (x = '/')) =
      n.reverse ++ '/' :: m.reverse := by
    cases hrn : n.reverse with
    | nil => exact absurd (by simpa using hrn) hn
    | cons a t =>
      rw [List.cons_append]
      refine dropWhile_cons_false a _ ?_
      simp only [decide_eq_false_iff_not]
      intro hxe
      have : a ∈ n.reverse := by rw [hrn]; simp
      rw [hxe] at this
      exact hns (List.mem_reverse.mp this)
  have h3 : ((n.reverse ++ '/' :: m.reverse).dropWhile fun x => decide ¬x = '/') =
      '/' :: m.reverse := by
    refine dropWhile_append_stop n.reverse '/' m.reverse ?_ (by simp)
    intro x hx
    simp only [decide_eq_true_eq]
    intro hxe
    rw [hxe] at hx
    exact hns (List.mem_reverse.mp hx)
  rw [h2, h3]
  rw [if_neg (by simp)]
  have hlen : ('/' :: m.reverse).length = 1 + m.length := by
    simp [Nat.add_comm]
  rw [if_neg ?_]
  · rw [hlen]
    have : ('/' :: (m ++ '/' :: n)).take (1 + m.length) = '/' :: (m ++ '/' :: n).take m.length := by
      rw [Nat.add_comm]
      rfl
    rw [this, List.take_left]
  · rintro ⟨-, hcontra⟩
    rw [hlen] at hcontra
    cases m with
    | nil => exact hm rfl
    | cons a t =>
      rw [List.length_cons] at hcontra
      omega

theorem joinAbs_canonical (p n : String) (hp : CanonicalAbs p) (hn : GoodSeg n.data) :
    (joinAbs p n).data = (if p = "/" then ('/' :: n.data) else p.data ++ '/' :: n.data) := by
  obtain ⟨hn1, hn2, _, hn4, hn5⟩ := hn
  unfold joinAbs posixNormalizeAbs
  dsimp only
  rcases hp with hroot | ⟨segs, hs1, hs2, hs3⟩
  · subst hroot
    rw [if_pos rfl]
    have hsplit : splitSeg (("/" : String).data ++ '/' :: n.data) = [] :: [] :: [n.data] := by
      show splitSeg ('/' :: '/' :: n.data) = _
      rw [splitSeg_cons_slash, splitSeg_cons_slash, splitSeg_no_slash n.data hn2]
    rw [hsplit]
    rw [normSegs, if_pos (Or.inl rfl), normSegs, if_pos (Or.inl rfl)]
    rw [normSegs_id [n.data] [] (by intro x hx; simp at hx; subst hx; exact ⟨hn1, hn4, hn5⟩)]
    rw [if_neg (by simp)]
    rw [if_neg (append_slash_getLast ("/" : String).data n.data hn1 hn2)]
    show '/' :: joinSeg ((List.reverse []) ++ [n.data]) ++ [] = '/' :: n.data
    rw [List.reverse_nil, List.nil_append, List.append_nil, joinSeg_singleton]
  · have hppne : p ≠ "/" := by
      intro h
      rw [h] at hs3
      have : joinSeg segs = [] := by
        have := hs3.symm
        injection this
      exact joinSeg_ne_nil segs hs1 (fun s hs => (hs2 s hs).1) this
    rw [if_neg hppne, hs3]
    have hsplit : splitSeg (('/' :: joinSeg segs) ++ '/' :: n.data) =
        [] :: (segs ++ [n.data]) := by
      rw [List.cons_append, splitSeg_cons_slash]
      rw [splitSeg_joinSeg_append segs n.data hs1 (fun s hs => (hs2 s hs).2.1)]
      rw [splitSeg_no_slash n.data hn2]
    rw [hsplit]
    rw [normSegs, if_pos (Or.inl rfl)]
    rw [normSegs_id (segs ++ [n.data]) [] ?_]
    · rw [if_neg (by simp)]
      rw [if_neg (append_slash_getLast ('/' :: joinSeg segs) n.data hn1 hn2)]
      rw [List.reverse_nil, List.nil_append, List.append_nil]
      rw [joinSeg_append_singleton segs n.data hs1]
      simp
    · intro x hx
      rcases List.mem_append.mp hx with h | h
      · obtain ⟨a1, -, a3, a4⟩ := hs2 x h
        exact ⟨a1, a3, a4⟩
      · simp at h
        subst h
        exact ⟨hn1, hn4, hn5⟩

/-- C10: `sanitizeName` accepts exactly the trimmed, NUL-stripped names that
are nonempty, slash-free and not `.`/`..`; consequently, joining an accepted
name onto a canonical resolved parent (as mkdir, plain upload and chunked
upload init do) yields a path whose dirname is that parent and whose basename
is the accepted name — a direct child; and the trash relocation name built
around an accepted name stays a single slash-free segment. -/
theorem sanitizeName_single_segment :
    (∀ v : String,
      (sanitizeName v = none ↔
        ((jsTrim v.data).filter (· ≠ '\x00') = [] ∨
          '/' ∈ (jsTrim v.data).filter (· ≠ '\x00') ∨
          '\\' ∈ (jsTrim v.data).filter (· ≠ '\x00') ∨
          (jsTrim v.data).filter (· ≠ '\x00') = ['.'] ∨
          (jsTrim v.data).filter (· ≠ '\x00') = ['.', '.'])) ∧
      ∀ n, sanitizeName v = some n →
        n.data = (jsTrim v.data).filter (· ≠ '\x00') ∧ GoodSeg n.data) ∧
    (∀ (v n p : String), sanitizeName v = some n → CanonicalAbs p →
      posixDirname (joinAbs p n).data = p.data ∧
      posixBasename (joinAbs p n).data = n.data) ∧
    (∀ (ts uid : List Char) (v n : String), sanitizeName v = some n →
      '/' ∉ ts → '/' ∉ uid → '/' ∉ ts ++ '-' :: (n.data ++ '-' :: uid)) := by
  have hsome : ∀ (v n : String), sanitizeName v = some n →
      n.data = (jsTrim v.data).filter (· ≠ '\x00') ∧ GoodSeg n.data := by
    intro v n h
    unfold sanitizeName at h
    dsimp only at h
    split at h
    · cases h
    · split at h
      · cases h
      · split at h
        · cases h
        · rename_i h1 h2 h3
          injection h with h
          push_neg at h2 h3
          refine ⟨by rw [← h], ?_⟩
          rw [← h]
          exact ⟨h1, h2.1, h2.2, h3.1, h3.2⟩
  refine ⟨?_, ?_, ?_⟩
  · intro v
    constructor
    · constructor
      · intro h
        unfold sanitizeName at h
        dsimp only at h
        split at h
        · rename_i h1; exact Or.inl h1
        · split at h
          · rename_i h2
            rcases h2 with h2 | h2
            · exact Or.inr (Or.inl h2)
            · exact Or.inr (Or.inr (Or.inl h2))
          · split at h
            · rename_i h3
              rcases h3 with h3 | h3
              · exact Or.inr (Or.inr (Or.inr (Or.inl h3)))
              · exact Or.inr (Or.inr (Or.inr (Or.inr h3)))
            · cases h
      · intro h
        unfold sanitizeName
        dsimp only
        split
        · rfl
        · rename_i h1
          split
          · rfl
          · rename_i h2
            split
            · rfl
            · rename_i h3
              push_neg at h2 h3
              rcases h with h | h | h | h | h
              · exact absurd h h1
              · exact absurd h h2.1
              · exact absurd h h2.2
              · exact absurd h h3.1
              · exact absurd h h3.2
    · exact fun n h => hsome v n h
  · intro v n p hsan hp
    obtain ⟨-, hgood⟩ := hsome v n hsan
    obtain ⟨hn1, hn2, -, -, -⟩ := id hgood
    rw [joinAbs_canonical p n hp hgood]
    by_cases hroot : p = "/"
    · rw [if_pos hroot, hroot]
      exact ⟨posixDirname_root_child n.data hn1 hn2, by
        have := posixBasename_append_child [] n.data hn1 hn2
        simpa using this⟩
    · rw [if_neg hroot]
      rcases hp with h | ⟨segs, hs1, hs2, hs3⟩
      · exact absurd h hroot
      · rw [hs3]
        constructor
        · rw [List.cons_append]
          exact posixDirname_deep_child (joinSeg segs) n.data
            (joinSeg_ne_nil segs hs1 (fun s hs => (hs2 s hs).1)) hn1 hn2
        · exact posixBasename_append_child ('/' :: joinSeg segs) n.data hn1 hn2
  · intro ts uid v n hsan hts huid
    obtain ⟨-, -, hn2, -⟩ := hsome v n hsan
    intro hmem
    rcases List.mem_append.mp hmem with h | h
    · exact hts h
    · rcases List.mem_cons.mp h with h | h
      · cases h
      · rcases List.mem_append.mp h with h | h
        · exact hn2 h
        · rcases List.mem_cons.mp h with h | h
          · cases h
          · exact huid h

/-- Witness for C10 at concrete inputs: the name ` file.txt ` is accepted as
`file.txt`, and joining it under the canonical parent `/r/docs` yields a
direct child of `/r/docs`. -/
theorem sanitizeName_single_segment_witness :
    (sanitizeName " file.txt " = some "file.txt" →
      "file.txt".data = (jsTrim (" file.txt " : String).data).filter (· ≠ '\x00') ∧
        GoodSeg ("file.txt" : String).data) ∧
    (posixDirname (joinAbs "/r/docs" "file.txt").data = ("/r/docs" : String).data ∧
      posixBasename (joinAbs "/r/docs" "file.txt").data = ("file.txt" : String).data) := by
  constructor
  · exact (sanitizeName_single_segment.1 " file.txt ").2 "file.txt"
  · refine sanitizeName_single_segment.2.1 " file.txt " "file.txt" "/r/docs" (by decide) ?_
    refine Or.inr ⟨[['r'], ['d', 'o', 'c', 's']], by simp, ?_, by decide⟩
    intro s hs
    simp at hs
    rcases hs with h | h <;> subst h <;> refine ⟨by decide, by decide, by decide, by decide⟩

/-! ### Move handlers (POST /api/move and handleS3Move) -/

/-- Filesystem oracle for the local move handler: `realpath` and `pathExists`. -/
structure FsOracle where
  realp : String → Option String
  pathExists : String → Bool

/-- Outcome of the local move handler: the final `fs.rename(src, dst)` call,
or the guard that rejected the request (404/400/409 responses). -/
inductive MoveRes where
  | renamed (src dst : String)
  | errSrcNotFound
  | errMoveRoot
  | errThrown (e : ResolveErr)
  | errInvalidDest
  | errSameAsSource
  | errConflict
  | errSelfNested
  deriving DecidableEq

/-- Embedding of the POST /api/move route body (src/server.ts, local mode),
after authentication and JSON parsing.  `errThrown` models the uncaught
exception escaping `resolveDestinationPath`. -/
def localMove (o : FsOracle) (rootReal fromPath toPath : String) : MoveRes :=
  match resolveSafePath o.realp fromPath rootReal with
  | .err _ => .errSrcNotFound
  | .ok fromResolved =>
    if fromResolved.normalized = "/" then .errMoveRoot
    else
      match resolveDestinationPath o.realp toPath rootReal with
      | .thrown e => .errThrown e
      | .ok none => .errInvalidDest
      | .ok (some dest) =>
        if ¬ isWithinRoot dest.fullPath rootReal then .errInvalidDest
        else if dest.fullPath = fromResolved.fullPath then .errSameAsSource
        else if o.pathExists dest.fullPath then .errConflict
        else if (fromResolved.fullPath ++ "/").data <+: dest.fullPath.data then .errSelfNested
        else .renamed fromResolved.fullPath dest.fullPath

/-- Object-store oracle for the S3 handlers: object existence at a key and
whether any object lives under a prefix (`ListObjectsV2 MaxKeys=1`). -/
structure S3Oracle where
  objectExists : String → Bool
  prefixHasObjects : String → Bool

/-- Embedding of `toS3Prefix` (src/server.ts): strip trailing slashes and the
leading slash, then append `/` under the root prefix. -/
def toS3Prefix (rootPref normalizedPath : String) : String :=
  if normalizedPath = "/" then rootPref
  else ⟨rootPref.data ++
    (((normalizedPath.data.reverse.dropWhile (· = '/')).reverse).drop 1 ++ ['/'])⟩

/-- Embedding of `s3PrefixExists` (src/server.ts): an empty prefix counts as
existing. -/
def s3PrefixExists (o : S3Oracle) (pre : String) : Bool :=
  if pre = "" then true else o.prefixHasObjects pre

/-- Classification returned by `getS3PathInfo`. -/
inductive S3PathType where
  | dir
  | file
  | missing
  deriving DecidableEq

/-- Embedding of `getS3PathInfo` (src/server.ts), classification part: the
root is a dir; an object at the exact key is a file; a nonempty prefix is a
dir; otherwise nothing is there.  (The size/mtime fields of the source are
copied verbatim from the store response and are not modelled.) -/
def getS3PathInfo (o : S3Oracle) (rootPref normalizedPath : String) : S3PathType :=
  if normalizedPath = "/" then .dir
  else
    let key := toS3Key rootPref normalizedPath
    if o.objectExists key then .file
    else if s3PrefixExists o (toS3Prefix rootPref normalizedPath) then .dir
    else .missing

/-- Embedding of `s3PathExists` (src/server.ts). -/
def s3PathExists (o : S3Oracle) (rootPref normalizedPath : String) : Bool :=
  getS3PathInfo o rootPref normalizedPath ≠ .missing

/-- Outcome of the S3 move handler: the `moveS3Path` call or the rejecting
guard. -/
inductive S3MoveRes where
  | moved (fromPath toPath : String) (t : S3PathType)
  | errSrcNotFound
  | errMoveRoot
  | errInvalidDest
  | errSameAsSource
  | errConflict
  | errSelfNested
  deriving DecidableEq

/-- Embedding of `handleS3Move` (src/server.ts), after authentication and JSON
parsing. -/
def handleS3Move (o : S3Oracle) (rootPref fromPath toPath : String) : S3MoveRes :=
  match resolveSafeS3Path fromPath rootPref with
  | .err _ => .errSrcNotFound
  | .ok fromResolved =>
    if fromResolved.normalized = "/" then .errMoveRoot
    else
      match resolveDestinationPathS3 toPath with
      | .invalid => .errInvalidDest
      | .ok destNormalized =>
        if destNormalized = fromResolved.normalized then .errSameAsSource
        else if getS3PathInfo o rootPref ⟨posixDirname destNormalized.data⟩ ≠ .dir then
          .errInvalidDest
        else if s3PathExists o rootPref destNormalized then .errConflict
        else
          match getS3PathInfo o rootPref fromResolved.normalized with
          | .missing => .errSrcNotFound
          | info =>
            if info = .dir ∧ (fromResolved.normalized ++ "/").data <+: destNormalized.data then
              .errSelfNested
            else .moved fromResolved.normalized destNormalized info

/-- Oracle for the C8 counterexample (local): root `/r` contains directory
`a` which contains `b`. -/
def c8Oracle : FsOracle :=
  { realp := fun s => if s = "/r/a" then some "/r/a" else if s = "/r" then some "/r" else none
    pathExists := fun s => s = "/r/a/b" }

/-- Oracle for the C8 counterexample (S3): under root prefix `r/`, an object
sits at key `r/a` (so `/a` is a FILE) while other objects live under the
prefix `r/a/b/` (so `/a/b` is a phantom directory — a state reachable through
overwrite uploads, which skip the prefix-collision check), and nothing
occupies `/a/b/c`. -/
def c8S3Oracle : S3Oracle :=
  { objectExists := fun s => s = "r/a"
    prefixHasObjects := fun s => s = "r/a/b/" }

/-- C8 counterexample: the claim fails in both modes.  Locally, moving `/a`
into `/a/b` when `/a/b` already exists answers 409 Conflict, not the
InvalidOperation (self-nesting) response, because the destination-exists
guard runs first.  In S3 mode, moving the FILE `/a` to the string-nested
destination `/a/b/c` passes every guard — the self-containment check only
applies to directory sources — and the copy+delete move is performed instead
of failing at all. -/
theorem move_nested_violations :
    (localMove c8Oracle "/r" "/a" "/a/b" = .errConflict ∧
      MoveRes.errConflict ≠ .errSelfNested) ∧
    (handleS3Move c8S3Oracle "r/" "/a" "/a/b/c" = .moved "/a" "/a/b/c" .file ∧
      ("/a/" : String).data <+: ("/a/b/c" : String).data) := by
  refine ⟨⟨by decide, by decide⟩, by decide, by decide⟩

/-- C8 (amended): for a move whose destination is nested inside the source,
the local handler never performs the rename — when the destination resolves
inside the root it fails with Conflict (409) if the destination already
exists and with InvalidOperation (400, self-nesting) otherwise, the
exists-guard running first (resolution failures surface as other errors,
still without renaming).  In S3 mode the same holds for directory sources,
and no directory is ever moved into its own subtree; but for a FILE source
(which can coexist with a same-named directory prefix created by overwrite
uploads) the directory-only self-containment guard does not fire and the
nested move is performed. -/
theorem move_nested_fails :
    (∀ (o : FsOracle) (rootReal fromPath toPath s d : String),
      localMove o rootReal fromPath toPath = .renamed s d →
      ¬ (s ++ "/").data <+: d.data) ∧
    (∀ (o : S3Oracle) (rootPref fromPath toPath a b : String),
      handleS3Move o rootPref fromPath toPath = .moved a b .dir →
      ¬ (a ++ "/").data <+: b.data) ∧
    (∀ (o : FsOracle) (rootReal fromPath toPath : String) (f : Resolved) (d : DestResolved),
      resolveSafePath o.realp fromPath rootReal = .ok f →
      f.normalized ≠ "/" →
      resolveDestinationPath o.realp toPath rootReal = .ok (some d) →
      isWithinRoot d.fullPath rootReal = true →
      d.fullPath ≠ f.fullPath →
      (f.fullPath ++ "/").data <+: d.fullPath.data →
      localMove o rootReal fromPath toPath =
        (if o.pathExists d.fullPath then .errConflict else .errSelfNested)) ∧
    (∀ (o : S3Oracle) (rootPref fromPath toPath : String) (f : S3Resolved) (dn : String),
      resolveSafeS3Path fromPath rootPref = .ok f →
      f.normalized ≠ "/" →
      resolveDestinationPathS3 toPath = .ok dn →
      dn ≠ f.normalized →
      getS3PathInfo o rootPref ⟨posixDirname dn.data⟩ = .dir →
      getS3PathInfo o rootPref f.normalized = .dir →
      (f.normalized ++ "/").data <+: dn.data →
      handleS3Move o rootPref fromPath toPath =
        (if s3PathExists o rootPref dn then .errConflict else .errSelfNested)) ∧
    (∀ (o : S3Oracle) (rootPref fromPath toPath : String) (f : S3Resolved) (dn : String),
      resolveSafeS3Path fromPath rootPref = .ok f →
      f.normalized ≠ "/" →
      resolveDestinationPathS3 toPath = .ok dn →
      dn ≠ f.normalized →
      getS3PathInfo o rootPref ⟨posixDirname dn.data⟩ = .dir →
      s3PathExists o rootPref dn = false →
      getS3PathInfo o rootPref f.normalized = .file →
      handleS3Move o rootPref fromPath toPath = .moved f.normalized dn .file) := by
  refine ⟨?_, ?_, ?_, ?_, ?_⟩
  · intro o rootReal fromPath toPath s d h
    unfold localMove at h
    split at h
    · exact absurd h (by simp)
    · split at h
      · exact absurd h (by simp)
      · split at h
        · exact absurd h (by simp)
        · exact absurd h (by simp)
        · split at h
          · exact absurd h (by simp)
          · split at h
            · exact absurd h (by simp)
            · split at h
              · exact absurd h (by simp)
              · split at h
                · exact absurd h (by simp)
                · rename_i hguard
                  injection h with h1 h2
                  subst h1
                  subst h2
                  exact hguard
  · intro o rootPref fromPath toPath a b h
    unfold handleS3Move at h
    split at h
    · exact absurd h (by simp)
    · split at h
      · exact absurd h (by simp)
      · split at h
        · exact absurd h (by simp)
        · split at h
          · exact absurd h (by simp)
          · split at h
            · exact absurd h (by simp)
            · split at h
              · exact absurd h (by simp)
              · split at h
                · exact absurd h (by simp)
                · split at h
                  · exact absurd h (by simp)
                  · rename_i hguard
                    injection h with h1 h2 h3
                    subst h1
                    subst h2
                    intro hp
                    exact hguard ⟨h3, hp⟩
  · intro o rootReal fromPath toPath f d hres hnr hdest hwithin hne hnested
    unfold localMove
    rw [hres]
    dsimp only
    rw [if_neg hnr, hdest]
    dsimp only
    rw [if_neg (by rw [hwithin]; intro hc; exact hc rfl), if_neg hne]
    by_cases hex : o.pathExists d.fullPath = true
    · rw [if_pos hex, if_pos hex]
    · rw [if_neg hex, if_neg hex, if_pos hnested]
  · intro o rootPref fromPath toPath f dn hres hnr hdest hne hparent hinfo hnested
    unfold handleS3Move
    rw [hres]
    dsimp only
    rw [if_neg hnr, hdest]
    dsimp only
    rw [if_neg hne, if_neg (by rw [hparent]; intro hc; exact hc rfl)]
    by_cases hex : s3PathExists o rootPref dn = true
    · rw [if_pos hex, if_pos hex]
    · rw [if_neg hex, if_neg hex]
      split
      · rename_i hmiss
        rw [hinfo] at hmiss
        cases hmiss
      · rw [if_pos ⟨hinfo, hnested⟩]
  · intro o rootPref fromPath toPath f dn hres hnr hdest hne hparent hex hinfo
    unfold handleS3Move
    rw [hres]
    dsimp only
    rw [if_neg hnr, hdest]
    dsimp only
    rw [if_neg hne, if_neg (by rw [hparent]; intro hc; exact hc rfl)]
    rw [if_neg (by rw [hex]; intro hc; cases hc)]
    split
    · rename_i hmiss
      rw [hinfo] at hmiss
      cases hmiss
    · rw [if_neg (by rintro ⟨hd, -⟩; rw [hinfo] at hd; cases hd), hinfo]

/-- Oracle for the C8 witness: like `c8Oracle` but the nested destination does
not exist yet, so the self-nesting guard answers. -/
def c8WitnessOracle : FsOracle :=
  { realp := fun s => if s = "/r/a" then some "/r/a" else if s = "/r" then some "/r" else none
    pathExists := fun _ => false }

/-- Witness for C8's amended theorem: the local nested move with an absent
destination hits the self-nesting answer, and the S3 file-source nested move
is performed. -/
theorem move_nested_fails_witness :
    localMove c8WitnessOracle "/r" "/a" "/a/b" =
        (if c8WitnessOracle.pathExists (DestResolved.fullPath ⟨"/a/b", "/r/a/b"⟩)
          then .errConflict else .errSelfNested) ∧
      handleS3Move c8S3Oracle "r/" "/a" "/a/b/c" = .moved "/a" "/a/b/c" .file :=
  ⟨move_nested_fails.2.2.1 c8WitnessOracle "/r" "/a" "/a/b" ⟨"/a", "/r/a"⟩ ⟨"/a/b", "/r/a/b"⟩
      (by decide) (by decide) (by decide) (by decide) (by decide) (by decide),
    move_nested_fails.2.2.2.2 c8S3Oracle "r/" "/a" "/a/b/c" ⟨"/a", "r/"⟩ "/a/b/c"
      (by decide) (by decide) (by decide) (by decide) (by decide) (by decide) (by decide)⟩

/-! ### Share registry (POST /api/share, findShareForPath, removeSharesForPath)

`SHARE_MAP` is a token-keyed JS `Map` with insertion order, modelled as a list
of records with unique tokens; `Map.set` replaces in place or appends.  A
falsy legacy `rootReal` is modelled as the empty string.  Persistence
(`saveShareStore`) is a no-op for these claims. -/

/-- A stored share record. -/
structure ShareRecord where
  token : String
  path : String
  rootReal : String
  createdAt : Int
  deriving DecidableEq

/-- JS `Map.set`: replace the record with the same token in place, or append. -/
def mapSet : List ShareRecord → ShareRecord → List ShareRecord
  | [], r => [r]
  | q :: rest, r => if q.token = r.token then r :: rest else q :: mapSet rest r

/-- One step of the newest-match accumulation in `findShareForPath`:
`if (!match || record.createdAt > match.createdAt) match = record`. -/
def pickStep (m : Option ShareRecord) (r : ShareRecord) : Option ShareRecord :=
  match m with
  | none => some r
  | some q => if r.createdAt > q.createdAt then some r else some q

/-- Embedding of the `findShareForPath` loop (src/server.ts): walk the map in
order, adopt a legacy record's root in place, and keep the strictly newest
match.  Returns the (possibly adopted) store and the match. -/
def findShareLoop : List ShareRecord → String → String → Option ShareRecord →
    List ShareRecord × Option ShareRecord
  | [], _, _, m => ([], m)
  | r :: rest, targetPath, rootReal, m =>
    if r.path ≠ targetPath ∨ (r.rootReal ≠ "" ∧ r.rootReal ≠ rootReal) then
      let res := findShareLoop rest targetPath rootReal m
      (r :: res.1, res.2)
    else
      let r' := if r.rootReal = "" then { r with rootReal := rootReal } else r
      let m' := if r'.rootReal = rootReal then pickStep m r' else m
      let res := findShareLoop rest targetPath rootReal m'
      (r' :: res.1, res.2)

/-- Embedding of `findShareForPath` (src/server.ts). -/
def findShareForPath (st : List ShareRecord) (targetPath rootReal : String) :
    List ShareRecord × Option ShareRecord :=
  findShareLoop st targetPath rootReal none

/-- Embedding of `removeSharesForPath` (src/server.ts). -/
def removeSharesForPath (st : List ShareRecord) (targetPath rootReal : String) :
    List ShareRecord :=
  st.filter fun r => ¬ (r.path = targetPath ∧ (r.rootReal = "" ∨ r.rootReal = rootReal))

/-- Embedding of `getShareRecord` (src/server.ts): `SHARE_MAP.get`. -/
def getShareRecord (st : List ShareRecord) (token : String) : Option ShareRecord :=
  st.find? fun r => r.token = token

/-- Core of the POST /api/share handler after path resolution and the is-file
check (identical in local and S3 mode): idempotent lookup unless `force`,
otherwise purge then mint.  `newToken` stands for `randomUUID()` and `now` for
`Date.now()`. -/
def shareCreate (st : List ShareRecord) (p rootReal : String) (force : Bool)
    (newToken : String) (now : Int) : List ShareRecord × String :=
  if force = false then
    let res := findShareForPath st p rootReal
    match res.2 with
    | some existing => (res.1, existing.token)
    | none => (mapSet res.1 ⟨newToken, p, rootReal, now⟩, newToken)
  else
    (mapSet (removeSharesForPath st p rootReal) ⟨newToken, p, rootReal, now⟩, newToken)

/-- A record the loop treats as a live share for `(p, rootReal)`. -/
def Qualifies (p rootReal : String) (r : ShareRecord) : Prop :=
  r.path = p ∧ (r.rootReal = "" ∨ r.rootReal = rootReal)

instance (p rootReal : String) (r : ShareRecord) : Decidable (Qualifies p rootReal r) := by
  unfold Qualifies
  infer_instance

/-- Root adoption applied by the loop to one record. -/
def adoptOne (p rootReal : String) (r : ShareRecord) : ShareRecord :=
  if r.path = p ∧ r.rootReal = "" then { r with rootReal := rootReal } else r

/-- The qualifying records, with adoption applied, in map order. -/
def candidates (p rootReal : String) (st : List ShareRecord) : List ShareRecord :=
  (st.filter fun r => Qualifies p rootReal r).map (adoptOne p rootReal)

/-- The strictly-newest fold of the loop (first record wins ties). -/
def pickBest (m : Option ShareRecord) (l : List ShareRecord) : Option ShareRecord :=
  l.foldl pickStep m

theorem findShareLoop_spec (targetPath rootReal : String) :
    ∀ (st : List ShareRecord) (m : Option ShareRecord),
      findShareLoop st targetPath rootReal m =
        (st.map (adoptOne targetPath rootReal),
          pickBest m (candidates targetPath rootReal st)) := by
  intro st
  induction st with
  | nil => intro m; rfl
  | cons r rest ih =>
    intro m
    rw [findShareLoop]
    by_cases hskip : r.path ≠ targetPath ∨ (r.rootReal ≠ "" ∧ r.rootReal ≠ rootReal)
    · have hnq : ¬ Qualifies targetPath rootReal r := by
        rintro ⟨h1, h2⟩
        rcases hskip with h | ⟨h3, h4⟩
        · exact h h1
        · rcases h2 with h2 | h2
          · exact h3 h2
          · exact h4 h2
      have hadopt : adoptOne targetPath rootReal r = r := by
        unfold adoptOne
        rw [if_neg]
        rintro ⟨h1, h2⟩
        exact hnq ⟨h1, Or.inl h2⟩
      rw [if_pos hskip]
      dsimp only
      rw [ih m, List.map_cons, hadopt]
      unfold candidates
      rw [List.filter_cons_of_neg (by simpa using hnq)]
    · have hskip2 := hskip
      push_neg at hskip2
      obtain ⟨hpath, hroot⟩ := hskip2
      have hq : Qualifies targetPath rootReal r := by
        refine ⟨hpath, ?_⟩
        by_cases h0 : r.rootReal = ""
        · exact Or.inl h0
        · exact Or.inr (hroot h0)
      have hadopt : (if r.rootReal = "" then { r with rootReal := rootReal } else r) =
          adoptOne targetPath rootReal r := by
        unfold adoptOne
        by_cases h0 : r.rootReal = ""
        · rw [if_pos h0, if_pos ⟨hpath, h0⟩]
        · rw [if_neg h0, if_neg (by rintro ⟨-, h⟩; exact h0 h)]
      have hroot' : (adoptOne targetPath rootReal r).rootReal = rootReal := by
        unfold adoptOne
        by_cases h0 : r.rootReal = ""
        · rw [if_pos ⟨hpath, h0⟩]
        · rw [if_neg (by rintro ⟨-, h⟩; exact h0 h)]
          exact hroot h0
      rw [if_neg hskip]
      dsimp only
      rw [hadopt, if_pos hroot', ih (pickStep m (adoptOne targetPath rootReal r))]
      rw [List.map_cons]
      unfold candidates
      rw [List.filter_cons_of_pos (by simpa using hq), List.map_cons]
      rfl

theorem adoptOne_idem (p rootReal : String) (r : ShareRecord) :
    adoptOne p rootReal (adoptOne p rootReal r) = adoptOne p rootReal r := by
  unfold adoptOne
  by_cases h : r.path = p ∧ r.rootReal = ""
  · rw [if_pos h]
    by_cases hr : rootReal = ""
    · rw [if_pos ⟨h.1, hr⟩, hr]
    · rw [if_neg (by rintro ⟨-, hc⟩; exact hr hc)]
  · rw [if_neg h, if_neg h]

theorem adoptOne_token (p rootReal : String) (r : ShareRecord) :
    (adoptOne p rootReal r).token = r.token := by
  unfold adoptOne
  split <;> rfl

theorem qualifies_adoptOne (p rootReal : String) (r : ShareRecord) :
    Qualifies p rootReal (adoptOne p rootReal r) ↔ Qualifies p rootReal r := by
  unfold adoptOne
  by_cases h : r.path = p ∧ r.rootReal = ""
  · rw [if_pos h]
    unfold Qualifies
    constructor
    · intro _
      exact ⟨h.1, Or.inl h.2⟩
    · intro _
      by_cases hr : rootReal = ""
      · exact ⟨h.1, Or.inl hr⟩
      · exact ⟨h.1, Or.inr rfl⟩
  · rw [if_neg h]

theorem candidates_map_adoptOne (p rootReal : String) (st : List ShareRecord) :
    candidates p rootReal (st.map (adoptOne p rootReal)) = candidates p rootReal st := by
  induction st with
  | nil => rfl
  | cons r rest ih =>
    unfold candidates at *
    rw [List.map_cons]
    by_cases hq : Qualifies p rootReal r
    · rw [List.filter_cons_of_pos (by simpa using (qualifies_adoptOne p rootReal r).mpr hq),
        List.filter_cons_of_pos (by simpa using hq), List.map_cons, List.map_cons,
        adoptOne_idem, ih]
    · rw [List.filter_cons_of_neg
          (by simpa using fun hc => hq ((qualifies_adoptOne p rootReal r).mp hc)),
        List.filter_cons_of_neg (by simpa using hq), ih]

theorem pickBest_some_isSome : ∀ (l : List ShareRecord) (q : ShareRecord),
    (pickBest (some q) l).isSome = true := by
  intro l
  induction l with
  | nil => intro q; rfl
  | cons r rest ih =>
    intro q
    show (pickBest (pickStep (some q) r) rest).isSome = true
    unfold pickStep
    dsimp only
    split
    · exact ih r
    · exact ih q

theorem pickBest_none_eq_none : ∀ l : List ShareRecord, pickBest none l = none → l = [] := by
  intro l hl
  cases l with
  | nil => rfl
  | cons r rest =>
    have : (pickBest (some r) rest).isSome = true := pickBest_some_isSome rest r
    have hstep : pickBest none (r :: rest) = pickBest (some r) rest := rfl
    rw [hstep] at hl
    rw [hl] at this
    cases this

theorem candidates_eq_nil (p rootReal : String) (st : List ShareRecord)
    (h : candidates p rootReal st = []) : ∀ r ∈ st, ¬ Qualifies p rootReal r := by
  unfold candidates at h
  have hfil := List.map_eq_nil.mp h
  intro r hr hq
  have : r ∈ st.filter fun r => Qualifies p rootReal r := by
    rw [List.mem_filter]
    exact ⟨hr, by simpa using hq⟩
  rw [hfil] at this
  cases this

theorem mapSet_mem : ∀ (l : List ShareRecord) (q r : ShareRecord),
    r ∈ mapSet l q → r = q ∨ r ∈ l := by
  intro l
  induction l with
  | nil =>
    intro q r hr
    simp [mapSet] at hr
    exact Or.inl hr
  | cons x rest ih =>
    intro q r hr
    unfold mapSet at hr
    split at hr
    · rcases List.mem_cons.mp hr with h | h
      · exact Or.inl h
      · exact Or.inr (List.mem_cons_of_mem x h)
    · rcases List.mem_cons.mp hr with h | h
      · exact Or.inr (by rw [h]; simp)
      · rcases ih q r h with h2 | h2
        · exact Or.inl h2
        · exact Or.inr (List.mem_cons_of_mem x h2)

theorem candidates_mapSet (p rootReal : String) :
    ∀ (st : List ShareRecord) (rec : ShareRecord),
      (∀ r ∈ st, ¬ Qualifies p rootReal r) → Qualifies p rootReal rec →
        candidates p rootReal (mapSet st rec) = [adoptOne p rootReal rec] := by
  intro st
  induction st with
  | nil =>
    intro rec _ hq
    unfold mapSet candidates
    rw [List.filter_cons_of_pos (by simpa using hq)]
    rfl
  | cons x rest ih =>
    intro rec hall hq
    unfold mapSet
    split
    · unfold candidates
      rw [List.filter_cons_of_pos (by simpa using hq)]
      have : rest.filter (fun r => Qualifies p rootReal r) = [] := by
        rw [List.filter_eq_nil]
        intro a ha
        simpa using hall a (List.mem_cons_of_mem x ha)
      rw [this]
      rfl
    · unfold candidates
      rw [List.filter_cons_of_neg (by simpa using hall x (by simp))]
      exact ih rec (fun r hr => hall r (List.mem_cons_of_mem x hr)) hq

theorem pickBest_newest : ∀ (l : List ShareRecord) (m : Option ShareRecord) (r : ShareRecord),
    pickBest m l = some r →
      (∀ q ∈ l, q.createdAt ≤ r.createdAt) ∧
        (∀ q0, m = some q0 → q0.createdAt ≤ r.createdAt) := by
  intro l
  induction l with
  | nil =>
    intro m r h
    refine ⟨?_, ?_⟩
    · intro q hq
      cases hq
    · intro q0 hm
      rw [hm] at h
      injection h with h
      rw [h]
  | cons x rest ih =>
    intro m r h
    have hstep : pickBest (pickStep m x) rest = some r := h
    obtain ⟨hrest, hm⟩ := ih (pickStep m x) r hstep
    have hx : x.createdAt ≤ r.createdAt := by
      cases m with
      | none => exact hm x rfl
      | some q =>
        unfold pickStep at hm
        dsimp only at hm
        by_cases hgt : x.createdAt > q.createdAt
        · exact hm x (by rw [if_pos hgt])
        · have hq := hm q (by rw [if_neg hgt])
          exact le_trans (not_lt.mp hgt) hq
    refine ⟨?_, ?_⟩
    · intro q hq
      rcases List.mem_cons.mp hq with h1 | h1
      · rw [h1]; exact hx
      · exact hrest q h1
    · intro q0 hm0
      subst hm0
      unfold pickStep at hm
      dsimp only at hm
      by_cases hgt : x.createdAt > q0.createdAt
      · exact le_trans (le_of_lt hgt) (hm x (by rw [if_pos hgt]))
      · exact hm q0 (by rw [if_neg hgt])

theorem shareCreate_false_spec (st : List ShareRecord) (p rootReal t : String) (n : Int) :
    shareCreate st p rootReal false t n =
      match pickBest none (candidates p rootReal st) with
      | some r0 => (st.map (adoptOne p rootReal), r0.token)
      | none => (mapSet (st.map (adoptOne p rootReal)) ⟨t, p, rootReal, n⟩, t) := by
  unfold shareCreate findShareForPath
  rw [if_pos rfl, findShareLoop_spec]

/-- C6: share creation is idempotent — two consecutive non-force calls for the
same `(path, rootRef)` return the same token; a force call purges every prior
record for the pair (any previously issued token for it stops resolving) and
returns the freshly minted token; and a non-force hit returns a newest live
record for the pair. -/
theorem shareCreate_spec :
    (∀ (st : List ShareRecord) (p rootReal t1 t2 : String) (n1 n2 : Int),
      (shareCreate (shareCreate st p rootReal false t1 n1).1 p rootReal false t2 n2).2 =
        (shareCreate st p rootReal false t1 n1).2) ∧
    (∀ (st : List ShareRecord) (p rootReal t3 tk : String) (n3 : Int),
      (∀ r ∈ st, r.token = tk → Qualifies p rootReal r) → tk ≠ t3 →
      (shareCreate st p rootReal true t3 n3).2 = t3 ∧
        getShareRecord (shareCreate st p rootReal true t3 n3).1 tk = none) ∧
    (∀ (st : List ShareRecord) (p rootReal : String) (r : ShareRecord),
      (findShareForPath st p rootReal).2 = some r →
        ∀ q ∈ candidates p rootReal st, q.createdAt ≤ r.createdAt) := by
  refine ⟨?_, ?_, ?_⟩
  · intro st p rootReal t1 t2 n1 n2
    rw [shareCreate_false_spec st p rootReal t1 n1]
    cases hpick : pickBest none (candidates p rootReal st) with
    | some r0 =>
      dsimp only
      rw [shareCreate_false_spec]
      rw [candidates_map_adoptOne, hpick]
    | none =>
      dsimp only
      rw [shareCreate_false_spec]
      have hnil : candidates p rootReal st = [] := pickBest_none_eq_none _ hpick
      have hnone : ∀ r ∈ st, ¬ Qualifies p rootReal r := candidates_eq_nil p rootReal st hnil
      have hnone2 : ∀ r ∈ st.map (adoptOne p rootReal), ¬ Qualifies p rootReal r := by
        intro r hr hq
        obtain ⟨x, hx, hxr⟩ := List.mem_map.mp hr
        rw [← hxr] at hq
        exact hnone x hx ((qualifies_adoptOne p rootReal x).mp hq)
      have hqual : Qualifies p rootReal ⟨t1, p, rootReal, n1⟩ := ⟨rfl, Or.inr rfl⟩
      rw [candidates_mapSet p rootReal _ _ hnone2 hqual]
      have hone : pickBest none [adoptOne p rootReal ⟨t1, p, rootReal, n1⟩] =
          some (adoptOne p rootReal ⟨t1, p, rootReal, n1⟩) := rfl
      rw [hone]
      dsimp only
      rw [adoptOne_token]
  · intro st p rootReal t3 tk n3 hall hne
    unfold shareCreate
    rw [if_neg (by decide)]
    refine ⟨rfl, ?_⟩
    unfold getShareRecord
    rw [List.find?_eq_none]
    intro r hr
    simp only [decide_eq_true_eq]
    intro htok
    rcases mapSet_mem _ _ _ hr with h | h
    · rw [h] at htok
      exact hne htok.symm
    · unfold removeSharesForPath at h
      rw [List.mem_filter] at h
      obtain ⟨hmem, hpred⟩ := h
      have hq := hall r hmem htok
      simp only [decide_eq_true_eq] at hpred
      exact hpred ⟨hq.1, hq.2⟩
  · intro st p rootReal r hfind
    unfold findShareForPath at hfind
    rw [findShareLoop_spec] at hfind
    dsimp only at hfind
    exact (pickBest_newest _ none r hfind).1

/-- Witness for C6 at a concrete store: two non-force creates agree, and a
force create purges the old token. -/
theorem shareCreate_spec_witness :
    (shareCreate (shareCreate [] "/docs/a.txt" "/r" false "tokA" 5).1
        "/docs/a.txt" "/r" false "tokB" 6).2 =
      (shareCreate [] "/docs/a.txt" "/r" false "tokA" 5).2 ∧
      ((shareCreate [⟨"tokA", "/docs/a.txt", "/r", 5⟩] "/docs/a.txt" "/r" true "tokB" 6).2 =
          "tokB" ∧
        getShareRecord
          (shareCreate [⟨"tokA", "/docs/a.txt", "/r", 5⟩] "/docs/a.txt" "/r" true "tokB" 6).1
          "tokA" = none) :=
  ⟨shareCreate_spec.1 [] "/docs/a.txt" "/r" "tokA" "tokB" 5 6,
    shareCreate_spec.2.1 [⟨"tokA", "/docs/a.txt", "/r", 5⟩] "/docs/a.txt" "/r" "tokB" "tokA" 6
      (by
        intro r hr htok
        rw [List.mem_singleton] at hr
        subst hr
        exact ⟨rfl, Or.inr rfl⟩)
      (by decide)⟩

end Datamaya
